import Mathlib

/-!
# Verification of the SVGTree core (Newick tokenizer/parser/serializer,
# generic tree operations, and the leaf-axis layout engine)

Shallow embedding of `src/SVGTree.ts`.  Strings are modelled as `List Char`,
JavaScript arrays as Lean lists, the mutable node graph as an explicit heap
(a list of node records addressed by allocation index), and JavaScript's
three-valued parent reference (`null` / `undefined` / object) as an
explicit sum type.  Rational numbers stand in for JavaScript numbers: the
layout engine only ever computes integers, halves of integers, and their
minima/maxima, so ℚ is exact for it.
-/

namespace SVGTreeSpec

/-! ## Tokenizer (`class Tokenizer`, SVGTree.ts lines 20-75) -/

/-- Tokens produced by `Tokenizer.tokenize`.  The numeric constants
`SEMICOLON = 0`, `COMMA = 1`, `PAR_LEFT = 2`, `PAR_RIGHT = 3` become the
first four constructors; a string entry of the `tokens` array becomes
`label`; `undef` models the JavaScript `undefined` value that
`tokens.push(symbol)` stores when a trailing backslash makes
`text[pos + 1]` undefined. -/
inductive Token : Type
  | semi
  | comma
  | pl
  | pr
  | label (s : List Char)
  | undef
deriving DecidableEq, Repr

/-- The reserved characters `'(),;\\'` (the string used by both
`Tokenizer.escape` and `Tokenizer.unescape`). -/
def isReserved (c : Char) : Bool :=
  c = '(' || c = ')' || c = ',' || c = ';' || c = '\\'

/-- `Tokenizer.escape` (lines 26-35): prefix every reserved character
with a backslash, scanning left to right. -/
def escape : List Char → List Char
  | [] => []
  | c :: t => (if isReserved c then ['\\', c] else [c]) ++ escape t

/-- `Tokenizer.unescape` (lines 37-41).  `symbol` is `text[pos + 1]`,
which is `none` when the backslash is the last character; `strict` is the
truthiness of the second argument.  The `throw` becomes `Except.error`. -/
def unescape (symbol : Option Char) (strict : Bool) : Except Unit (Option Char) :=
  if strict && (match symbol with | none => true | some c => !isReserved c)
  then Except.error ()
  else Except.ok symbol

/-- One `default:` step of `tokenize`: append `symbol` to the token array,
merging it into the last entry when that entry is a string
(`tokens[tokens.length-1] += symbol`), else pushing a fresh one-character
string.  The accumulator holds the token array in reverse. -/
def pushSym (rtoks : List Token) (c : Char) : List Token :=
  match rtoks with
  | Token.label s :: t => Token.label (s ++ [c]) :: t
  | _ => Token.label [c] :: rtoks

/-- The `default:` step for the JavaScript `undefined` symbol (trailing
backslash): `tokens[len-1] += undefined` coerces to appending the text
`"undefined"`, while `tokens.push(undefined)` stores the undefined value. -/
def pushUndef (rtoks : List Token) : List Token :=
  match rtoks with
  | Token.label s :: t =>
      Token.label (s ++ ['u', 'n', 'd', 'e', 'f', 'i', 'n', 'e', 'd']) :: t
  | _ => Token.undef :: rtoks

/-- The `while` loop of `Tokenizer.tokenize` (lines 43-74), the `switch`
on `text[pos]` rendered as pattern matching on the head character.  The
token array is threaded in reverse (`rtoks`); each step consumes one
character, or two when a backslash escape is read.  The call
`this.unescape(text[pos + 1])` passes no second argument, so `strict` is
false and the kept symbol is always the raw next character (or the
JavaScript `undefined` when the backslash ends the input). -/
def tokenizeAux : List Char → List Token → List Token
  | [], rtoks => rtoks
  | ';' :: rest, rtoks => tokenizeAux rest (Token.semi :: rtoks)
  | ',' :: rest, rtoks => tokenizeAux rest (Token.comma :: rtoks)
  | '(' :: rest, rtoks => tokenizeAux rest (Token.pl :: rtoks)
  | ')' :: rest, rtoks => tokenizeAux rest (Token.pr :: rtoks)
  | '\\' :: [], rtoks => pushUndef rtoks
  | '\\' :: d :: rest2, rtoks =>
    (match unescape (some d) false with
     | Except.ok (some sym) => tokenizeAux rest2 (pushSym rtoks sym)
     | _ => tokenizeAux rest2 rtoks)
  | c :: rest, rtoks => tokenizeAux rest (pushSym rtoks c)

/-- `Tokenizer.tokenize`. -/
def tokenize (text : List Char) : List Token :=
  (tokenizeAux text []).reverse

@[simp] theorem unescape_false (s : Option Char) : unescape s false = Except.ok s := by
  simp [unescape]

/-- Whether the last pushed token (head of the reversed accumulator) is not
a string, so that the next label character starts a fresh token. -/
def noLabelHead : List Token → Prop
  | Token.label _ :: _ => False
  | _ => True

@[simp] theorem noLabelHead_nil : noLabelHead [] := trivial

@[simp] theorem noLabelHead_semi (r : List Token) : noLabelHead (Token.semi :: r) := trivial

@[simp] theorem noLabelHead_comma (r : List Token) : noLabelHead (Token.comma :: r) := trivial

@[simp] theorem noLabelHead_pl (r : List Token) : noLabelHead (Token.pl :: r) := trivial

@[simp] theorem noLabelHead_pr (r : List Token) : noLabelHead (Token.pr :: r) := trivial

@[simp] theorem tokStep_semi (rest : List Char) (r : List Token) :
    tokenizeAux (';' :: rest) r = tokenizeAux rest (Token.semi :: r) := by
  simp [tokenizeAux]

@[simp] theorem tokStep_comma (rest : List Char) (r : List Token) :
    tokenizeAux (',' :: rest) r = tokenizeAux rest (Token.comma :: r) := by
  simp [tokenizeAux]

@[simp] theorem tokStep_pl (rest : List Char) (r : List Token) :
    tokenizeAux ('(' :: rest) r = tokenizeAux rest (Token.pl :: r) := by
  simp [tokenizeAux]

@[simp] theorem tokStep_pr (rest : List Char) (r : List Token) :
    tokenizeAux (')' :: rest) r = tokenizeAux rest (Token.pr :: r) := by
  simp [tokenizeAux]

@[simp] theorem tokStep_backslash (c : Char) (rest : List Char) (r : List Token) :
    tokenizeAux ('\\' :: (c :: rest)) r = tokenizeAux rest (pushSym r c) := by
  simp [tokenizeAux, unescape]

theorem tokStep_default (c : Char) (rest : List Char) (r : List Token)
    (hc : ¬ isReserved c) :
    tokenizeAux (c :: rest) r = tokenizeAux rest (pushSym r c) := by
  have h1 : ¬ c = ';' := fun h => by simp [isReserved, h] at hc
  have h2 : ¬ c = ',' := fun h => by simp [isReserved, h] at hc
  have h3 : ¬ c = '(' := fun h => by simp [isReserved, h] at hc
  have h4 : ¬ c = ')' := fun h => by simp [isReserved, h] at hc
  have h5 : ¬ c = '\\' := fun h => by simp [isReserved, h] at hc
  cases rest with
  | nil => simp [tokenizeAux, h1, h2, h3, h4, h5]
  | cons x xs => simp [tokenizeAux, h1, h2, h3, h4, h5]

theorem tokenizeAux_escape (s : List Char) (rest : List Char) (r : List Token) :
    tokenizeAux (escape s ++ rest) r = tokenizeAux rest (s.foldl pushSym r) := by
  induction s generalizing r with
  | nil => simp [escape]
  | cons c t ih =>
    rw [show escape (c :: t) = (if isReserved c then ['\\', c] else [c]) ++ escape t from rfl]
    by_cases hc : isReserved c
    · rw [if_pos hc]
      simp only [List.cons_append, List.nil_append, List.append_assoc, tokStep_backslash]
      exact ih (pushSym r c)
    · rw [if_neg hc]
      simp only [List.cons_append, List.nil_append, List.append_assoc]
      rw [tokStep_default c _ r hc]
      exact ih (pushSym r c)

theorem foldl_pushSym_label (t : List Char) (a : List Char) (r : List Token) :
    t.foldl pushSym (Token.label a :: r) = Token.label (a ++ t) :: r := by
  induction t generalizing a with
  | nil => simp
  | cons c t ih =>
    simp only [List.foldl_cons, pushSym, ih, List.append_assoc, List.cons_append,
      List.nil_append]

theorem foldl_pushSym_fresh (s : List Char) (r : List Token) (h : noLabelHead r)
    (hs : s ≠ []) : s.foldl pushSym r = Token.label s :: r := by
  match s with
  | [] => exact absurd rfl hs
  | c :: t =>
    have hstep : pushSym r c = Token.label [c] :: r := by
      cases r with
      | nil => rfl
      | cons x r' => cases x <;> first | rfl | exact absurd h (by simp [noLabelHead])
    simp only [List.foldl_cons, hstep, foldl_pushSym_label, List.cons_append,
      List.nil_append]

@[simp] theorem tokStep_nil (r : List Token) : tokenizeAux [] r = r := rfl

/-- Claim C7, counterexample.  The claim asserts that for every string
`s`, including the empty string, `tokenize (escape s ++ ";")` yields one
label-fragment token equal to `s` followed by `SEMICOLON`.  For the empty
string the scan emits no label fragment at all: the output is just the
`SEMICOLON` marker. -/
theorem c7_counterexample :
    tokenize (escape [] ++ [';']) = [Token.semi] ∧
    tokenize (escape [] ++ [';']) ≠ [Token.label [], Token.semi] := by
  exact ⟨rfl, by decide⟩

/-- Claim C7, amended: for every nonempty string `s` (including strings
made of the five reserved characters), `tokenize (escape s ++ ";")` is
exactly the label fragment `s` followed by the `SEMICOLON` marker; for
the empty string it is the `SEMICOLON` marker alone. -/
theorem c7_amended (s : List Char) :
    tokenize (escape s ++ [';']) =
      if s = [] then [Token.semi] else [Token.label s, Token.semi] := by
  rw [tokenize, tokenizeAux_escape]
  by_cases hs : s = []
  · subst hs; simp
  · rw [foldl_pushSym_fresh s [] trivial hs]
    simp [hs]

/-- Claim C4 (a code bug): the spec says `tokenize` raises the
invalid-escape error when a backslash is followed by a non-reserved
character or by end of input.  The error exists in `unescape` but only in
strict mode, and `tokenize` calls `unescape(text[pos + 1])` without the
strict argument, so the error can never fire: `"\a"` tokenizes to the
plain label `"a"`, and a trailing backslash pushes the JavaScript
`undefined` value instead of raising. -/
theorem c4_invalid_escape_never_raised :
    unescape (some 'a') true = Except.error () ∧
    unescape none true = Except.error () ∧
    unescape (some 'a') false = Except.ok (some 'a') ∧
    tokenize ['\\', 'a'] = [Token.label ['a']] ∧
    tokenize ['\\'] = [Token.undef] := by
  refine ⟨rfl, rfl, rfl, rfl, rfl⟩

/-! ## Pure tree values and the serializer (`newick`, lines 243-259) -/

/-- A pure, immutable tree value: a label and an ordered list of children.
Used to state structural properties of the parser and serializer. -/
inductive NTree : Type
  | node (label : List Char) (children : List NTree)

/-- Label of the root. -/
def NTree.label : NTree → List Char
  | NTree.node l _ => l

/-- Children of the root. -/
def NTree.childList : NTree → List NTree
  | NTree.node _ cs => cs

mutual

/-- `Tree.prototype._recurrentNewick` (lines 247-259): children in
parentheses, comma-joined, followed by the escaped label. -/
def recNewick : NTree → List Char
  | NTree.node l [] => escape l
  | NTree.node l (c :: cs) => '(' :: (recNewickList (c :: cs) ++ ')' :: escape l)

/-- The comma-joining loop over the children inside `_recurrentNewick`. -/
def recNewickList : List NTree → List Char
  | [] => []
  | [c] => recNewick c
  | c :: c2 :: cs => recNewick c ++ ',' :: recNewickList (c2 :: cs)

end

/-- `Tree.prototype.newick` (lines 243-245): serialization plus the
trailing semicolon. -/
def newick (t : NTree) : List Char :=
  recNewick t ++ [';']

/-- The token list a label contributes: nothing when empty (no characters
are emitted for it), otherwise one merged label token. -/
def labTok (l : List Char) : List Token :=
  if l = [] then [] else [Token.label l]

mutual

/-- Token-level image of `recNewick`: `tokenize (recNewick t)` produces
exactly this sequence. -/
def tokOf : NTree → List Token
  | NTree.node l [] => labTok l
  | NTree.node l (c :: cs) =>
      Token.pl :: (tokOfList (c :: cs) ++ Token.pr :: labTok l)

/-- Token-level image of `recNewickList`. -/
def tokOfList : List NTree → List Token
  | [] => []
  | [c] => tokOf c
  | c :: c2 :: cs => tokOf c ++ Token.comma :: tokOfList (c2 :: cs)

end

mutual

theorem tokenizeAux_recNewick (t : NTree) (rest : List Char) (r : List Token)
    (h : noLabelHead r) :
    tokenizeAux (recNewick t ++ rest) r
      = tokenizeAux rest ((tokOf t).reverse ++ r) := by
  match t with
  | NTree.node l [] =>
    rw [recNewick, tokOf, tokenizeAux_escape]
    by_cases hl : l = []
    · subst hl; simp [labTok]
    · rw [foldl_pushSym_fresh l r h hl]
      simp [labTok, hl]
  | NTree.node l (c :: cs) =>
    rw [recNewick, tokOf]
    simp only [List.cons_append, List.append_assoc, tokStep_pl]
    rw [tokenizeAux_recNewickList (c :: cs) _ _ (by simp) (by simp)]
    simp only [tokStep_pr]
    rw [tokenizeAux_escape]
    by_cases hl : l = []
    · subst hl; simp [labTok]
    · rw [foldl_pushSym_fresh l _ (by simp) hl]
      simp [labTok, hl]

theorem tokenizeAux_recNewickList (cs : List NTree) (rest : List Char) (r : List Token)
    (h : noLabelHead r) (hcs : cs ≠ []) :
    tokenizeAux (recNewickList cs ++ rest) r
      = tokenizeAux rest ((tokOfList cs).reverse ++ r) := by
  match cs with
  | [] => exact absurd rfl hcs
  | [c] =>
    rw [recNewickList, tokOfList]
    exact tokenizeAux_recNewick c rest r h
  | c :: c2 :: cs' =>
    rw [recNewickList, tokOfList]
    rw [List.append_assoc, tokenizeAux_recNewick c _ r h]
    simp only [List.cons_append, tokStep_comma]
    rw [tokenizeAux_recNewickList (c2 :: cs') _ _ (by simp) (by simp)]
    simp

end

/-- Tokenizing a serialized tree yields the token-level image plus the
terminating semicolon. -/
theorem tokenize_newick (t : NTree) :
    tokenize (newick t) = tokOf t ++ [Token.semi] := by
  rw [tokenize, newick, tokenizeAux_recNewick t [';'] [] trivial]
  show (tokenizeAux [';'] _).reverse = _
  rw [show tokenizeAux [';'] ((tokOf t).reverse ++ []) = Token.semi :: ((tokOf t).reverse ++ []) from rfl]
  simp

/-! ## The mutable node graph (`class Tree`, lines 127-351)

Nodes live on an explicit heap; a node reference is an allocation index.
The `parent` field is three-valued like the JavaScript original: `null`
(assigned by the constructor), `undefined` (assigned by `detach`), or a
node reference. -/

/-- A JavaScript reference to a tree node: `null`, `undefined`, or an
object (heap index). -/
inductive PRef : Type
  | null
  | undef
  | id (i : Nat)
deriving DecidableEq, Repr

/-- One node record: the `data` payload (label), the ordered `children`
array (heap indices) and the `parent` back-reference.  A node fresh from
the constructor (lines 138-143) has empty children and `null` parent. -/
structure Obj : Type where
  data : List Char
  children : List Nat
  parent : PRef
deriving DecidableEq, Repr

/-- The heap of allocated nodes. -/
abbrev Heap := List Obj

/-- Dereference a node (out-of-range reads never occur in the modelled
runs; a default record keeps the function total). -/
def getObj (h : Heap) (i : Nat) : Obj :=
  h.getD i ⟨[], [], PRef.null⟩

/-- Overwrite the record at index `i`. -/
def setObj (h : Heap) (i : Nat) (o : Obj) : Heap :=
  h.set i o

/-- Set the `parent` field of node `i`. -/
def setParentRef (h : Heap) (i : Nat) (p : PRef) : Heap :=
  setObj h i { getObj h i with parent := p }

/-- `Tree.removeChild` (lines 146-150): `indexOf` + `splice` removes the
first occurrence of `elem` from `this.children` when present; it does not
touch `elem.parent`. -/
def removeChild (h : Heap) (this elem : Nat) : Heap :=
  setObj h this { getObj h this with children := (getObj h this).children.erase elem }

/-- The tail of `Tree.prepend` (lines 174-175): `splice(0, 0, child)` and
`child.parent = this`. -/
def prependDo (h : Heap) (this child : Nat) : Heap :=
  setParentRef
    (setObj h this { getObj h this with children := child :: (getObj h this).children })
    child (PRef.id this)

/-- `Tree.prepend` (lines 170-176): when `child.parent !== null` the
child is first removed from that parent — a `TypeError` when the parent
is the `undefined` left by `detach` — then spliced in at index 0. -/
def prepend (h : Heap) (this child : Nat) : Except Unit Heap :=
  match (getObj h child).parent with
  | PRef.null => Except.ok (prependDo h this child)
  | PRef.undef => Except.error ()
  | PRef.id p => Except.ok (prependDo (removeChild h p child) this child)

/-- The tail of `Tree.append` (lines 160-161): `push(child)` and
`child.parent = this`. -/
def appendDo (h : Heap) (this child : Nat) : Heap :=
  setParentRef
    (setObj h this { getObj h this with children := (getObj h this).children ++ [child] })
    child (PRef.id this)

/-- `Tree.append` (lines 157-162). -/
def append (h : Heap) (this child : Nat) : Except Unit Heap :=
  match (getObj h child).parent with
  | PRef.null => Except.ok (appendDo h this child)
  | PRef.undef => Except.error ()
  | PRef.id p => Except.ok (appendDo (removeChild h p child) this child)

/-- `Tree.position` (lines 294-296): index among the parent's children,
`-1` for a node whose `parent` is not an object (`null`/`undefined` are
falsy) and, like `indexOf`, `-1` when the parent does not list it. -/
def position (h : Heap) (this : Nat) : Int :=
  match (getObj h this).parent with
  | PRef.id p =>
      let cs := (getObj h p).children
      if this ∈ cs then (cs.indexOf this : Int) else -1
  | _ => -1

/-- `Array.prototype.splice(start, 0, item)` start-index clamping:
negative values count from the end (clamped at 0), values beyond the
length clamp to the length. -/
def spliceIndex (len : Nat) (pos : Int) : Nat :=
  if pos < 0 then ((len : Int) + pos).toNat else min pos.toNat len

/-- The tail of `Tree.insert` (lines 187-188): splice `child` in at the
(already adjusted) position and set its parent. -/
def insertDo (h : Heap) (this child : Nat) (pos : Int) : Heap :=
  let cs := (getObj h this).children
  setParentRef
    (setObj h this
      { getObj h this with children := cs.insertIdx (spliceIndex cs.length pos) child })
    child (PRef.id this)

/-- `Tree.insert` (lines 178-189): when `child` is already a child of
`this` and its current index is strictly below `position`, the position
is first decremented; then the child is removed from its current parent
(a `TypeError` if that parent is `undefined`) and spliced in. -/
def insert (h : Heap) (this child : Nat) (pos0 : Int) : Except Unit Heap :=
  let pos1 :=
    if (getObj h child).parent = PRef.id this ∧ position h child < pos0
    then pos0 - 1 else pos0
  match (getObj h child).parent with
  | PRef.null => Except.ok (insertDo h this child pos1)
  | PRef.undef => Except.error ()
  | PRef.id p => Except.ok (insertDo (removeChild h p child) this child pos1)

/-- `Tree.detach` (lines 282-287): remove `this` from its parent when the
parent reference is truthy (an object), then assign
`this.parent = undefined`. -/
def detach (h : Heap) (this : Nat) : Heap :=
  let h1 :=
    match (getObj h this).parent with
    | PRef.id p => removeChild h p this
    | _ => h
  setParentRef h1 this PRef.undef

/-- `SVGTreeNode.root` (lines 416-421).  The loop variable starts at the
receiver and follows `parent` while it is `!== null`; evaluating
`root.parent` when the variable holds `null`/`undefined` throws a
`TypeError`, modelled as an error, as is exhausting `fuel`. -/
def rootLoop (h : Heap) : Nat → PRef → Except Unit Nat
  | 0, _ => Except.error ()
  | fuel+1, PRef.id i =>
    (match (getObj h i).parent with
     | PRef.null => Except.ok i
     | p => rootLoop h fuel p)
  | _+1, PRef.null => Except.error ()
  | _+1, PRef.undef => Except.error ()

/-! ## The parser (`Tree.parseInto`, lines 201-236) -/

/-- Parser state: the heap (index 0 is the receiver node `this`), and the
`parent` and `node` cursor variables of `parseInto`, both `null`
initially. -/
structure PState : Type where
  heap : Heap
  parent : PRef
  node : PRef
deriving DecidableEq, Repr

/-- Steps 2-3 of the backward scan (lines 211-220): store `data` into the
receiver when `parent` is still `null` (the outermost trailing label),
else allocate a fresh node through the factory
(`new SVGTreeNode(data, owner)`, children empty, parent `null`) and
prepend it to `parent`.  A non-object `parent` that is not `null` fails
the `parent === null` test and then throws inside `parent.prepend`. -/
def createNode (data : List Char) (st : PState) : Except Unit PState :=
  match st.parent with
  | PRef.null =>
      Except.ok { st with
        heap := setObj st.heap 0 { getObj st.heap 0 with data := data },
        node := PRef.id 0 }
  | PRef.undef => Except.error ()
  | PRef.id p =>
      match prepend (st.heap ++ [⟨data, [], PRef.null⟩]) p st.heap.length with
      | Except.ok h2 =>
          Except.ok { heap := h2, parent := st.parent, node := PRef.id st.heap.length }
      | Except.error e => Except.error e

/-- Step 4 of the backward scan (lines 223-230): on `PAR_LEFT` ascend
(`parent = parent.parent`) unless the token is the very first one
(`pos > 0` fails); reading `.parent` of a non-object throws.  On
`PAR_RIGHT` descend (`parent = node`).  `tok` is `none` when the label
consumption moved the position to `-1` (reading `tokens[-1]` yields
`undefined`, which matches no marker). -/
def parentStep (tok : Option Token) (posGtZero : Bool) (st : PState) : Except Unit PState :=
  match tok with
  | some Token.pl =>
      if posGtZero then
        match st.parent with
        | PRef.id p => Except.ok { st with parent := (getObj st.heap p).parent }
        | _ => Except.error ()
      else Except.ok st
  | some Token.pr => Except.ok { st with parent := st.node }
  | _ => Except.ok st

/-- Error propagation of a thrown `TypeError`: run the continuation only
when the step succeeded. -/
def exStep (x : Except Unit PState) (f : PState → Except Unit PState) : Except Unit PState :=
  match x with
  | Except.ok st => f st
  | Except.error e => Except.error e

/-- The backward `while (pos >= 0)` scan of `parseInto` (lines 207-233),
driven by the reversed token array.  `prev` is `tokens[pos + 1]`, the
token consumed in the previous iteration (`none` when the scan is at the
last token).  When `prev` is `PAR_LEFT` the node-extraction steps are
skipped; otherwise a leading label fragment (if any) is consumed as this
node's `data` together with the token that follows it backward.  (The
JavaScript comparison `tokens[pos+1] == PAR_LEFT` is a loose equality
that a string coercing to the number 2 would also satisfy; `tokenize`
never places a label token in the compared position for the inputs the
claims are about, and the comparison is modelled as marker identity.) -/
def parseLoop : List Token → Option Token → PState → Except Unit PState
  | [], _, st => Except.ok st
  | t :: rest, prev, st =>
    if prev = some Token.pl then
      exStep (parentStep (some t) (! rest.isEmpty) st) (fun st1 =>
        parseLoop rest (some t) st1)
    else
      match t with
      | Token.label l =>
        (match rest with
         | [] => createNode l st
         | u :: rest2 =>
           exStep (createNode l st) (fun st1 =>
             exStep (parentStep (some u) (! rest2.isEmpty) st1) (fun st2 =>
               parseLoop rest2 (some u) st2)))
      | _ =>
        exStep (createNode [] st) (fun st1 =>
          exStep (parentStep (some t) (! rest.isEmpty) st1) (fun st2 =>
            parseLoop rest (some t) st2))

/-- `Tree.parseInto` (lines 201-236) on a fresh receiver whose `data` is
`d0`: tokenize, then scan the token array backward from its last
element. -/
def parseInto (d0 : List Char) (text : List Char) : Except Unit PState :=
  parseLoop (tokenize text).reverse none ⟨[⟨d0, [], PRef.null⟩], PRef.null, PRef.null⟩

/-- Read back the pure tree rooted at heap index `i`.  `fuel` bounds the
descent; the parser only creates children at strictly larger indices, so
`h.length` fuel always suffices for trees it builds. -/
def readTree (h : Heap) : Nat → Nat → NTree
  | 0, i => NTree.node (getObj h i).data []
  | fuel+1, i => NTree.node (getObj h i).data ((getObj h i).children.map (readTree h fuel))

/-- `SVGTree.parse` (lines 1644-1650): parse into a fresh receiver
(`new SVGTreeNode(null, this)`), and on any thrown error return a single
fresh node holding the entire original text. -/
def svgTreeParse (text : List Char) : NTree :=
  match parseInto [] text with
  | Except.ok st => readTree st.heap st.heap.length 0
  | Except.error _ => NTree.node text []

/-- Claim C3, counterexample.  The claim says parsing `"(A,B;"` fails and
the recovery path returns a leaf labelled with the whole text.  In fact
the backward scan completes without error on this input: `parent` never
becomes defined, so each label is assigned to the receiver in turn
(finally `"A"`) and no children are created.  `SVGTree.parse` therefore
returns a childless node labelled `"A"`, not `"(A,B;"`. -/
theorem c3_counterexample :
    parseInto [] ['(', 'A', ',', 'B', ';']
      = Except.ok ⟨[⟨['A'], [], PRef.null⟩], PRef.null, PRef.id 0⟩ ∧
    svgTreeParse ['(', 'A', ',', 'B', ';'] = NTree.node ['A'] [] ∧
    NTree.node ['A'] [] ≠ NTree.node ['(', 'A', ',', 'B', ';'] [] := by
  refine ⟨rfl, rfl, fun heq => ?_⟩
  injection heq with h1 h2
  exact absurd h1 (by decide)

/-- Claim C3, amended: parsing `"(A,B;"` does not fail; the scan keeps
reassigning the receiver's label (no ascent past a missing parent is
attempted because the lone `PAR_LEFT` is the first token), and
`SVGTree.parse` returns a childless node labelled `"A"`.  Inputs that do
ascend past the `null` parent, such as `"((A;"`, raise, and for those the
documented recovery produces a single leaf holding the whole text. -/
theorem c3_amended :
    svgTreeParse ['(', 'A', ',', 'B', ';'] = NTree.node ['A'] [] ∧
    (∃ st, parseInto [] ['(', 'A', ',', 'B', ';'] = Except.ok st) ∧
    parseInto [] ['(', '(', 'A', ';'] = Except.error () ∧
    svgTreeParse ['(', '(', 'A', ';'] = NTree.node ['(', '(', 'A', ';'] [] := by
  exact ⟨rfl, ⟨_, rfl⟩, rfl, rfl⟩

/-! ## Heap access lemmas -/

theorem getObj_append (h l : Heap) (i : Nat) (hi : i < h.length) :
    getObj (h ++ l) i = getObj h i := by
  simp only [getObj, List.getD]
  rw [List.get?_append hi]

theorem getObj_append_self (h : Heap) (o : Obj) :
    getObj (h ++ [o]) h.length = o := by
  simp [getObj, List.getD]

theorem getObj_setObj_self (h : Heap) (i : Nat) (o : Obj) (hi : i < h.length) :
    getObj (setObj h i o) i = o := by
  simp [getObj, setObj, List.getD, List.getElem?_set_self' , hi]

theorem getObj_setObj_other (h : Heap) (i j : Nat) (o : Obj) (hij : j ≠ i) :
    getObj (setObj h i o) j = getObj h j := by
  simp [getObj, setObj, List.getD, List.getElem?_set_ne (fun h => hij h.symm)]

@[simp] theorem setObj_length (h : Heap) (i : Nat) (o : Obj) :
    (setObj h i o).length = h.length := by
  simp [setObj]

@[simp] theorem setParentRef_length (h : Heap) (i : Nat) (p : PRef) :
    (setParentRef h i p).length = h.length := by
  simp [setParentRef]

/-! ## Representation predicate for parsed trees -/

mutual

/-- Heap index `r` represents the pure tree `c`: correct label, and the
children array lists, in order and at strictly larger indices,
representatives of the child trees. -/
def Models (h : Heap) (r : Nat) : NTree → Prop
  | NTree.node l cs =>
      r < h.length ∧ (getObj h r).data = l ∧ ModelsList h r (getObj h r).children cs

/-- Pointwise representation of a forest by a list of heap indices, all
strictly above `r`. -/
def ModelsList (h : Heap) (r : Nat) : List Nat → List NTree → Prop
  | [], [] => True
  | j :: js, c :: cs => (r < j ∧ Models h j c) ∧ ModelsList h r js cs
  | _, [] => False
  | [], _ => False

end

mutual

theorem Models_mono (c : NTree) : ∀ (h h2 : Heap) (r : Nat),
    h.length ≤ h2.length →
    (∀ i, r ≤ i → i < h.length → getObj h2 i = getObj h i) →
    Models h r c → Models h2 r c := by
  intro h h2 r hlen hsame hm
  match c with
  | NTree.node l cs =>
    obtain ⟨hr, hd, hcl⟩ := hm
    refine ⟨lt_of_lt_of_le hr hlen, ?_, ?_⟩
    · rw [hsame r le_rfl hr, hd]
    · rw [hsame r le_rfl hr]
      exact ModelsList_mono cs h h2 r _ hlen (fun i hri hi => hsame i (le_of_lt hri) hi) hcl

theorem ModelsList_mono (cs : List NTree) : ∀ (h h2 : Heap) (r : Nat) (js : List Nat),
    h.length ≤ h2.length →
    (∀ i, r < i → i < h.length → getObj h2 i = getObj h i) →
    ModelsList h r js cs → ModelsList h2 r js cs := by
  intro h h2 r js hlen hsame hm
  match js, cs with
  | [], [] => trivial
  | j :: js', c :: cs' =>
    obtain ⟨⟨hrj, hmc⟩, htail⟩ := hm
    refine ⟨⟨hrj, ?_⟩, ModelsList_mono cs' h h2 r js' hlen hsame htail⟩
    exact Models_mono c h h2 j hlen
      (fun i hji hi => hsame i (lt_of_lt_of_le hrj hji) hi) hmc
  | _ :: _, [] => exact absurd hm (by simp [ModelsList])
  | [], _ :: _ => exact absurd hm (by simp [ModelsList])

end

mutual

theorem Models_readTree (c : NTree) : ∀ (h : Heap) (r : Nat) (fuel : Nat),
    Models h r c → h.length ≤ fuel + r → readTree h fuel r = c := by
  intro h r fuel hm hf
  match c with
  | NTree.node l cs =>
    obtain ⟨hr, hd, hcl⟩ := hm
    match fuel with
    | 0 => omega
    | fuel+1 =>
      rw [readTree, hd]
      congr 1
      exact Models_readTreeList cs h r _ fuel hcl (by omega)

theorem Models_readTreeList (cs : List NTree) :
    ∀ (h : Heap) (r : Nat) (js : List Nat) (fuel : Nat),
    ModelsList h r js cs → h.length ≤ fuel + r + 1 → js.map (readTree h fuel) = cs := by
  intro h r js fuel hm hf
  match js, cs with
  | [], [] => rfl
  | j :: js', c :: cs' =>
    obtain ⟨⟨hrj, hmc⟩, htail⟩ := hm
    rw [List.map_cons]
    congr 1
    · exact Models_readTree c h j fuel hmc (by omega)
    · exact Models_readTreeList cs' h r js' fuel htail hf
  | _ :: _, [] => exact absurd hm (by simp [ModelsList])
  | [], _ :: _ => exact absurd hm (by simp [ModelsList])

end

/-! ## Single parser steps, unfolded -/

theorem parseLoop_skip (t : Token) (rest : List Token) (st : PState) :
    parseLoop (t :: rest) (some Token.pl) st =
      exStep (parentStep (some t) (! rest.isEmpty) st) (fun st1 =>
        parseLoop rest (some t) st1) := by
  cases t <;> cases rest <;> simp [parseLoop]

theorem parseLoop_label_mid (l : List Char) (u : Token) (rest2 : List Token)
    (prev : Option Token) (hprev : prev ≠ some Token.pl) (st : PState) :
    parseLoop (Token.label l :: u :: rest2) prev st =
      exStep (createNode l st) (fun st1 =>
        exStep (parentStep (some u) (! rest2.isEmpty) st1) (fun st2 =>
          parseLoop rest2 (some u) st2)) := by
  simp [parseLoop, hprev]

theorem parseLoop_label_last (l : List Char) (prev : Option Token)
    (hprev : prev ≠ some Token.pl) (st : PState) :
    parseLoop [Token.label l] prev st = createNode l st := by
  simp [parseLoop, hprev]

theorem parseLoop_mark (t : Token) (rest : List Token) (prev : Option Token)
    (hprev : prev ≠ some Token.pl) (hlab : ∀ l, t ≠ Token.label l) (st : PState) :
    parseLoop (t :: rest) prev st =
      exStep (createNode [] st) (fun st1 =>
        exStep (parentStep (some t) (! rest.isEmpty) st1) (fun st2 =>
          parseLoop rest (some t) st2)) := by
  cases t <;> first
    | exact absurd rfl (hlab _)
    | simp [parseLoop, hprev]

/-- Heap shape after `createNode` allocates a node labelled `data` and
prepends it under parent `p`: one fresh record appended at index
`h.length`, spliced in front of `p`'s children, its parent set to `p`. -/
def allocChild (h : Heap) (p : Nat) (data : List Char) : Heap :=
  setParentRef
    (setObj (h ++ [⟨data, [], PRef.null⟩]) p
      { getObj h p with children := h.length :: (getObj h p).children })
    h.length (PRef.id p)

theorem createNode_id (data : List Char) (h : Heap) (p : Nat) (nd : PRef)
    (hp : p < h.length) :
    createNode data ⟨h, PRef.id p, nd⟩
      = Except.ok ⟨allocChild h p data, PRef.id p, PRef.id h.length⟩ := by
  have h1 : getObj (h ++ [⟨data, [], PRef.null⟩]) h.length = ⟨data, [], PRef.null⟩ :=
    getObj_append_self h _
  have h2 : getObj (h ++ [⟨data, [], PRef.null⟩]) p = getObj h p := getObj_append h _ p hp
  simp [createNode, prepend, h1, prependDo, allocChild, h2]

theorem createNode_null (data : List Char) (h : Heap) (nd : PRef) :
    createNode data ⟨h, PRef.null, nd⟩
      = Except.ok ⟨setObj h 0 { getObj h 0 with data := data }, PRef.null, PRef.id 0⟩ := rfl

@[simp] theorem allocChild_length (h : Heap) (p : Nat) (d : List Char) :
    (allocChild h p d).length = h.length + 1 := by
  simp [allocChild]

theorem getObj_allocChild_old (h : Heap) (p : Nat) (d : List Char) (i : Nat)
    (hi : i < h.length) (hip : i ≠ p) :
    getObj (allocChild h p d) i = getObj h i := by
  rw [allocChild, setParentRef, getObj_setObj_other _ _ _ _ (Nat.ne_of_lt hi),
    getObj_setObj_other _ _ _ _ hip, getObj_append h _ i hi]

theorem getObj_allocChild_p (h : Heap) (p : Nat) (d : List Char) (hp : p < h.length) :
    getObj (allocChild h p d) p
      = { getObj h p with children := h.length :: (getObj h p).children } := by
  rw [allocChild, setParentRef, getObj_setObj_other _ _ _ _ (Nat.ne_of_lt hp),
    getObj_setObj_self]
  simp [hp, Nat.lt_succ_of_lt]

theorem getObj_allocChild_fresh (h : Heap) (p : Nat) (d : List Char) (hp : p < h.length) :
    getObj (allocChild h p d) h.length = ⟨d, [], PRef.id p⟩ := by
  rw [allocChild, setParentRef, getObj_setObj_self]
  · rw [getObj_setObj_other _ _ _ _ (Nat.ne_of_gt hp), getObj_append_self]
  · simp

/-- The postcondition of parsing one subtree `c` under parent `p`:
everything alive except `p` untouched, `p` gained `r = h.length` as its
first child, and `r` represents `c` in the new heap. -/
structure BuildsChild (h : Heap) (p : Nat) (c : NTree) (h2 : Heap) : Prop where
  len : h.length ≤ h2.length
  same : ∀ i, i < h.length → i ≠ p → getObj h2 i = getObj h i
  pdata : (getObj h2 p).data = (getObj h p).data
  pparent : (getObj h2 p).parent = (getObj h p).parent
  pchildren : (getObj h2 p).children = h.length :: (getObj h p).children
  models : Models h2 h.length c

theorem buildsChild_alloc (h : Heap) (p : Nat) (l : List Char) (hp : p < h.length) :
    BuildsChild h p (NTree.node l []) (allocChild h p l) := by
  refine ⟨by simp, fun i hi hip => getObj_allocChild_old h p l i hi hip, ?_, ?_, ?_, ?_⟩
  · rw [getObj_allocChild_p h p l hp]
  · rw [getObj_allocChild_p h p l hp]
  · rw [getObj_allocChild_p h p l hp]
  · refine ⟨by simp, ?_, ?_⟩
    · rw [getObj_allocChild_fresh h p l hp]
    · rw [getObj_allocChild_fresh h p l hp]
      exact trivial

/-- The `parent` cursor after the separator preceding a subtree has been
consumed: a first-child separator `PAR_LEFT` ascends to `p`'s parent
unless it is the very first token of the whole input. -/
def afterSepRef (h : Heap) (p : Nat) (sep : Token) (rest : List Token) : PRef :=
  if sep = Token.pl ∧ rest ≠ [] then (getObj h p).parent else PRef.id p

theorem sepStep (h h2 : Heap) (p : Nat) (nd2 : PRef) (sep : Token) (rest : List Token)
    (hsep : sep = Token.comma ∨ sep = Token.pl)
    (hpar : (getObj h2 p).parent = (getObj h p).parent) :
    exStep (parentStep (some sep) (! rest.isEmpty) ⟨h2, PRef.id p, nd2⟩) (fun st2 =>
      parseLoop rest (some sep) st2)
    = parseLoop rest (some sep) ⟨h2, afterSepRef h p sep rest, nd2⟩ := by
  rcases hsep with rfl | rfl
  · simp [parentStep, afterSepRef, exStep]
  · cases rest with
    | nil => simp [parentStep, afterSepRef, exStep]
    | cons x xs => simp [parentStep, afterSepRef, exStep, hpar]


@[simp] theorem exStep_ok (st : PState) (f : PState → Except Unit PState) :
    exStep (Except.ok st) f = f st := rfl

theorem parentStep_pr (b : Bool) (st : PState) :
    parentStep (some Token.pr) b st = Except.ok { st with parent := st.node } := rfl

theorem tokOf_cons_reverse (l : List Char) (c1 : NTree) (cs2 : List NTree) (tail : List Token) :
    (tokOf (NTree.node l (c1 :: cs2))).reverse ++ tail
      = (labTok l).reverse ++ Token.pr :: ((tokOfList (c1 :: cs2)).reverse ++ Token.pl :: tail) := by
  rw [tokOf]
  simp

theorem tokOfList_cons_reverse (c c2 : NTree) (cs2 : List NTree) (tail : List Token) :
    (tokOfList (c :: c2 :: cs2)).reverse ++ tail
      = (tokOfList (c2 :: cs2)).reverse ++ Token.comma :: ((tokOf c).reverse ++ tail) := by
  rw [tokOfList]
  simp

mutual

theorem parseUnit (c : NTree) : ∀ (h : Heap) (p : Nat) (nd : PRef) (prev : Option Token)
    (sep : Token) (rest : List Token),
    p < h.length → prev ≠ some Token.pl → sep = Token.comma ∨ sep = Token.pl →
    ∃ h2 nd2,
      BuildsChild h p c h2 ∧
      parseLoop ((tokOf c).reverse ++ sep :: rest) prev ⟨h, PRef.id p, nd⟩
        = parseLoop rest (some sep) ⟨h2, afterSepRef h p sep rest, nd2⟩ := by
  intro h p nd prev sep rest hp hprev hsep
  have hsl : ∀ l2, sep ≠ Token.label l2 := by
    rcases hsep with rfl | rfl <;> exact fun l2 hcon => by cases hcon
  match c with
  | NTree.node l [] =>
    have hbc := buildsChild_alloc h p l hp
    have hpar : (getObj (allocChild h p l) p).parent = (getObj h p).parent := hbc.pparent
    by_cases hl : l = []
    · subst hl
      refine ⟨allocChild h p [], PRef.id h.length, hbc, ?_⟩
      rw [show (tokOf (NTree.node [] [])).reverse ++ sep :: rest = sep :: rest by
        simp [tokOf, labTok]]
      rw [parseLoop_mark sep rest prev hprev hsl, createNode_id [] h p nd hp, exStep_ok]
      exact sepStep h (allocChild h p []) p (PRef.id h.length) sep rest hsep hpar
    · refine ⟨allocChild h p l, PRef.id h.length, hbc, ?_⟩
      rw [show (tokOf (NTree.node l [])).reverse ++ sep :: rest
          = Token.label l :: sep :: rest by simp [tokOf, labTok, hl]]
      rw [parseLoop_label_mid l sep rest prev hprev, createNode_id l h p nd hp, exStep_ok]
      exact sepStep h (allocChild h p l) p (PRef.id h.length) sep rest hsep hpar
  | NTree.node l (c1 :: cs2) =>
    obtain ⟨h2, rs, nd2, hlen2, hsame2, hdata2, hpar2, hch2, hml2, heq2⟩ :=
      parseForest (c1 :: cs2) (allocChild h p l) h.length (PRef.id h.length) (some Token.pr)
        Token.pl (sep :: rest) (by simp) (fun hcon => by cases hcon) (Or.inr rfl) (by simp)
    have hfr := getObj_allocChild_fresh h p l hp
    have hpp := getObj_allocChild_p h p l hp
    have hgp : getObj h2 p = getObj (allocChild h p l) p :=
      hsame2 p (by simp [Nat.lt_succ_of_lt hp]) (Nat.ne_of_lt hp)
    have hbc : BuildsChild h p (NTree.node l (c1 :: cs2)) h2 := by
      refine ⟨le_trans (by simp) hlen2, ?_, ?_, ?_, ?_, ?_⟩
      · intro i hi hip
        rw [hsame2 i (by simp [Nat.lt_succ_of_lt hi]) (Nat.ne_of_lt hi),
          getObj_allocChild_old h p l i hi hip]
      · rw [hgp, hpp]
      · rw [hgp, hpp]
      · rw [hgp, hpp]
      · refine ⟨lt_of_lt_of_le (by simp) hlen2, ?_, ?_⟩
        · rw [hdata2, hfr]
        · rw [hch2, hfr]
          simpa using hml2
    refine ⟨h2, nd2, hbc, ?_⟩
    have hstream := tokOf_cons_reverse l c1 cs2 (sep :: rest)
    rw [hstream]
    have hmid : parseLoop ((tokOfList (c1 :: cs2)).reverse ++ Token.pl :: (sep :: rest))
        (some Token.pr) ⟨allocChild h p l, PRef.id h.length, PRef.id h.length⟩
        = parseLoop (sep :: rest) (some Token.pl) ⟨h2, PRef.id p, nd2⟩ := by
      rw [heq2]
      congr 1
      simp [afterSepRef, hfr]
    have hfin : parseLoop (sep :: rest) (some Token.pl) ⟨h2, PRef.id p, nd2⟩
        = parseLoop rest (some sep) ⟨h2, afterSepRef h p sep rest, nd2⟩ := by
      rw [parseLoop_skip]
      exact sepStep h h2 p nd2 sep rest hsep (by rw [hgp, hpp])
    by_cases hl : l = []
    · subst hl
      rw [show (labTok ([] : List Char)).reverse ++ Token.pr ::
            ((tokOfList (c1 :: cs2)).reverse ++ Token.pl :: (sep :: rest))
          = Token.pr :: ((tokOfList (c1 :: cs2)).reverse ++ Token.pl :: (sep :: rest)) by
        simp [labTok]]
      rw [parseLoop_mark Token.pr _ prev hprev (fun l2 hcon => by cases hcon),
        createNode_id [] h p nd hp, exStep_ok, parentStep_pr, exStep_ok]
      exact hmid.trans hfin
    · rw [show (labTok l).reverse ++ Token.pr ::
            ((tokOfList (c1 :: cs2)).reverse ++ Token.pl :: (sep :: rest))
          = Token.label l :: Token.pr ::
            ((tokOfList (c1 :: cs2)).reverse ++ Token.pl :: (sep :: rest)) by
        simp [labTok, hl]]
      rw [parseLoop_label_mid l Token.pr _ prev hprev, createNode_id l h p nd hp,
        exStep_ok, parentStep_pr, exStep_ok]
      exact hmid.trans hfin

theorem parseForest (cs : List NTree) : ∀ (h : Heap) (p : Nat) (nd : PRef) (prev : Option Token)
    (sep : Token) (rest : List Token),
    p < h.length → prev ≠ some Token.pl → sep = Token.comma ∨ sep = Token.pl →
    cs ≠ [] →
    ∃ h2 rs nd2,
      h.length ≤ h2.length ∧
      (∀ i, i < h.length → i ≠ p → getObj h2 i = getObj h i) ∧
      (getObj h2 p).data = (getObj h p).data ∧
      (getObj h2 p).parent = (getObj h p).parent ∧
      (getObj h2 p).children = rs ++ (getObj h p).children ∧
      ModelsList h2 p rs cs ∧
      parseLoop ((tokOfList cs).reverse ++ sep :: rest) prev ⟨h, PRef.id p, nd⟩
        = parseLoop rest (some sep) ⟨h2, afterSepRef h p sep rest, nd2⟩ := by
  intro h p nd prev sep rest hp hprev hsep hcs
  match cs with
  | [] => exact absurd rfl hcs
  | [c] =>
    obtain ⟨h2, nd2, hbc, heq⟩ := parseUnit c h p nd prev sep rest hp hprev hsep
    refine ⟨h2, [h.length], nd2, hbc.len, hbc.same, hbc.pdata, hbc.pparent,
      by simpa using hbc.pchildren, ⟨⟨hp, hbc.models⟩, trivial⟩, ?_⟩
    rw [show tokOfList [c] = tokOf c from rfl]
    exact heq
  | c :: c2 :: cs2 =>
    obtain ⟨hm, rsm, ndm, hlenm, hsamem, hdatam, hparm, hchm, hmlm, heqm⟩ :=
      parseForest (c2 :: cs2) h p nd prev Token.comma ((tokOf c).reverse ++ sep :: rest)
        hp hprev (Or.inl rfl) (by simp)
    obtain ⟨hf, ndf, hbc, heqf⟩ :=
      parseUnit c hm p ndm (some Token.comma) sep rest (lt_of_lt_of_le hp hlenm)
        (fun hcon => by cases hcon) hsep
    refine ⟨hf, hm.length :: rsm, ndf, le_trans hlenm hbc.len, ?_, ?_, ?_, ?_, ?_, ?_⟩
    · intro i hi hip
      rw [hbc.same i (lt_of_lt_of_le hi hlenm) hip, hsamem i hi hip]
    · rw [hbc.pdata, hdatam]
    · rw [hbc.pparent, hparm]
    · rw [hbc.pchildren, hchm]
      simp
    · refine ⟨⟨lt_of_lt_of_le hp hlenm, hbc.models⟩, ?_⟩
      exact ModelsList_mono (c2 :: cs2) hm hf p rsm hbc.len
        (fun i hpi hi => hbc.same i hi (Nat.ne_of_gt hpi)) hmlm
    · rw [tokOfList_cons_reverse c c2 cs2 (sep :: rest), heqm,
        show afterSepRef h p Token.comma ((tokOf c).reverse ++ sep :: rest) = PRef.id p by
          simp [afterSepRef],
        heqf,
        show afterSepRef hm p sep rest = afterSepRef h p sep rest by
          simp [afterSepRef, hparm]]

end



theorem parentStep_semi (b : Bool) (st : PState) :
    parentStep (some Token.semi) b st = Except.ok st := rfl

theorem parseInto_newick_ok (t : NTree) (d0 : List Char) :
    ∃ st, parseInto d0 (newick t) = Except.ok st ∧ Models st.heap 0 t := by
  have hrw : (tokenize (newick t)).reverse = Token.semi :: (tokOf t).reverse := by
    rw [tokenize_newick]; simp
  rw [parseInto, hrw]
  have hinit : createNode [] ⟨[⟨d0, [], PRef.null⟩], PRef.null, PRef.null⟩
      = Except.ok ⟨[⟨[], [], PRef.null⟩], PRef.null, PRef.id 0⟩ := rfl
  rw [parseLoop_mark Token.semi _ none (by simp) (fun l2 hcon => by cases hcon), hinit,
    exStep_ok, parentStep_semi, exStep_ok]
  match t with
  | NTree.node l [] =>
    by_cases hl : l = []
    · subst hl
      rw [show (tokOf (NTree.node ([] : List Char) [])).reverse = [] by simp [tokOf, labTok]]
      refine ⟨_, rfl, ?_⟩
      exact ⟨by simp, rfl, trivial⟩
    · rw [show (tokOf (NTree.node l [])).reverse = [Token.label l] by simp [tokOf, labTok, hl]]
      rw [parseLoop_label_last l (some Token.semi) (fun hcon => by cases hcon)]
      rw [show createNode l ⟨[⟨[], [], PRef.null⟩], PRef.null, PRef.id 0⟩
          = Except.ok ⟨[⟨l, [], PRef.null⟩], PRef.null, PRef.id 0⟩ from rfl]
      refine ⟨_, rfl, ?_⟩
      exact ⟨by simp, rfl, trivial⟩
  | NTree.node l (c1 :: cs2) =>
    obtain ⟨h3, rs, nd2, hlen3, hsame3, hdata3, hpar3, hch3, hml3, heq3⟩ :=
      parseForest (c1 :: cs2) [⟨l, [], PRef.null⟩] 0 (PRef.id 0) (some Token.pr)
        Token.pl [] (by simp) (fun hcon => by cases hcon) (Or.inr rfl) (by simp)
    have hmodels : Models h3 0 (NTree.node l (c1 :: cs2)) := by
      refine ⟨lt_of_lt_of_le (by simp) hlen3, ?_, ?_⟩
      · rw [hdata3]
        rfl
      · rw [hch3, show (getObj [⟨l, [], PRef.null⟩] 0).children = [] from rfl,
          List.append_nil]
        exact hml3
    have heq3x : parseLoop ((tokOfList (c1 :: cs2)).reverse ++ [Token.pl]) (some Token.pr)
        ⟨[⟨l, [], PRef.null⟩], PRef.id 0, PRef.id 0⟩ = Except.ok ⟨h3, PRef.id 0, nd2⟩ := by
      rw [show ((tokOfList (c1 :: cs2)).reverse ++ [Token.pl])
          = (tokOfList (c1 :: cs2)).reverse ++ Token.pl :: [] from rfl, heq3]
      rw [show afterSepRef [⟨l, [], PRef.null⟩] 0 Token.pl [] = PRef.id 0 by
        simp [afterSepRef]]
      rfl
    have hstream : (tokOf (NTree.node l (c1 :: cs2))).reverse
        = (labTok l).reverse ++ Token.pr :: ((tokOfList (c1 :: cs2)).reverse ++ [Token.pl]) := by
      rw [← List.append_nil (tokOf (NTree.node l (c1 :: cs2))).reverse,
        tokOf_cons_reverse l c1 cs2 []]
    rw [hstream]
    by_cases hl : l = []
    · subst hl
      rw [show (labTok ([] : List Char)).reverse ++ Token.pr ::
            ((tokOfList (c1 :: cs2)).reverse ++ [Token.pl])
          = Token.pr :: ((tokOfList (c1 :: cs2)).reverse ++ [Token.pl]) by simp [labTok]]
      rw [parseLoop_mark Token.pr _ (some Token.semi) (fun hcon => by cases hcon)
          (fun l2 hcon => by cases hcon),
        show createNode [] ⟨[⟨[], [], PRef.null⟩], PRef.null, PRef.id 0⟩
          = Except.ok ⟨[⟨([] : List Char), [], PRef.null⟩], PRef.null, PRef.id 0⟩ from rfl,
        exStep_ok, parentStep_pr, exStep_ok]
      exact ⟨_, heq3x, hmodels⟩
    · rw [show (labTok l).reverse ++ Token.pr ::
            ((tokOfList (c1 :: cs2)).reverse ++ [Token.pl])
          = Token.label l :: Token.pr :: ((tokOfList (c1 :: cs2)).reverse ++ [Token.pl]) by
        simp [labTok, hl]]
      rw [parseLoop_label_mid l Token.pr _ (some Token.semi) (fun hcon => by cases hcon),
        show createNode l ⟨[⟨[], [], PRef.null⟩], PRef.null, PRef.id 0⟩
          = Except.ok ⟨[⟨l, [], PRef.null⟩], PRef.null, PRef.id 0⟩ from rfl,
        exStep_ok, parentStep_pr, exStep_ok]
      exact ⟨_, heq3x, hmodels⟩

/-- Claim C1: for every finite tree with arbitrary string labels
(reserved characters included), parsing the Newick serialization —
`parseInto` applied to `newick()`'s output with a fresh receiver node
(arbitrary initial label `d0`) and the node factory — succeeds and
produces a tree structurally identical to the original: same child order
and same label at every node.  `svgTreeParse` states the same through the
public `SVGTree.parse` entry point. -/
theorem c1_parse_serialize_roundtrip (t : NTree) (d0 : List Char) :
    svgTreeParse (newick t) = t ∧
    ∃ st, parseInto d0 (newick t) = Except.ok st ∧ readTree st.heap st.heap.length 0 = t := by
  obtain ⟨st0, hok0, hm0⟩ := parseInto_newick_ok t []
  obtain ⟨st, hok, hm⟩ := parseInto_newick_ok t d0
  have hlen : st.heap.length ≤ st.heap.length + 0 := by omega
  refine ⟨?_, st, hok, Models_readTree t st.heap 0 st.heap.length hm hlen⟩
  rw [svgTreeParse, hok0]
  exact Models_readTree t st0.heap 0 st0.heap.length hm0 (by omega)



/-! ## Claims about the structural operations and `root` (C8, C10) -/

/-- The `Tree` constructor (lines 138-143): a fresh node starts with
`parent = null` and an empty children array. -/
def mkTreeNode (data : List Char) : Obj :=
  ⟨data, [], PRef.null⟩

@[simp] theorem removeChild_length (h : Heap) (a b : Nat) :
    (removeChild h a b).length = h.length := by
  simp [removeChild]

theorem detach_parent_undef (h : Heap) (n : Nat) (hn : n < h.length) :
    (getObj (detach h n) n).parent = PRef.undef := by
  rw [detach]
  have key : ∀ h2 : Heap, h2.length = h.length →
      (getObj (setParentRef h2 n PRef.undef) n).parent = PRef.undef := by
    intro h2 hl
    rw [setParentRef, getObj_setObj_self h2 n _ (by omega)]
  cases hp : (getObj h n).parent with
  | null => exact key h rfl
  | undef => exact key h rfl
  | id p => exact key (removeChild h p n) (by simp)

theorem rootLoop_ok_parent_null (h : Heap) (fuel : Nat) :
    ∀ (r : PRef) (i : Nat), rootLoop h fuel r = Except.ok i →
      (getObj h i).parent = PRef.null := by
  induction fuel with
  | zero => intro r i hcon; cases hcon
  | succ fuel ih =>
    intro r i hr
    match r with
    | PRef.null => cases hr
    | PRef.undef => cases hr
    | PRef.id j =>
      rw [rootLoop] at hr
      cases hp : (getObj h j).parent with
      | null =>
        rw [hp] at hr
        cases hr
        exact hp
      | undef =>
        rw [hp] at hr
        exact ih PRef.undef i hr
      | id k =>
        rw [hp] at hr
        exact ih (PRef.id k) i hr

/-- Claim C10: `root()` terminates with a node only when the parent chain
ends in `null`; the constructor initializes `parent` to `null` but
`detach` sets it to the distinct value `undefined`, so after `detach(n)`
a call to `root()` starting at `n` steps past the `undefined` parent and
throws at runtime for any iteration budget, and `root()` started anywhere
in the heap can never return the detached node as a root. -/
theorem c10_detach_breaks_root :
    (∀ d, (mkTreeNode d).parent = PRef.null) ∧
    (∀ (h : Heap) (fuel : Nat) (r : PRef) (i : Nat),
      rootLoop h fuel r = Except.ok i → (getObj h i).parent = PRef.null) ∧
    (∀ (h : Heap) (n : Nat), n < h.length →
      ∀ fuel, rootLoop (detach h n) fuel (PRef.id n) = Except.error ()) ∧
    (∀ (h : Heap) (n d m : Nat) (fuel : Nat), n < h.length →
      rootLoop (detach h n) fuel (PRef.id d) = Except.ok m → m ≠ n) := by
  have herr : ∀ (h : Heap) (n : Nat), n < h.length →
      ∀ fuel, rootLoop (detach h n) fuel (PRef.id n) = Except.error () := by
    intro h n hn fuel
    match fuel with
    | 0 => rfl
    | fuel+1 =>
      rw [rootLoop, detach_parent_undef h n hn]
      match fuel with
      | 0 => rfl
      | fuel+1 => rfl
  refine ⟨fun d => rfl, fun h fuel => rootLoop_ok_parent_null h fuel, herr, ?_⟩
  intro h n d m fuel hn hok heq
  have h1 := rootLoop_ok_parent_null (detach h n) fuel (PRef.id d) m hok
  rw [heq, detach_parent_undef h n hn] at h1
  cases h1

/-- Concrete four-node heap: node 0 has children `[A, B, C]` stored at
indices 1, 2, 3. -/
def c8heap : Heap :=
  [⟨['n'], [1, 2, 3], PRef.null⟩, ⟨['A'], [], PRef.id 0⟩,
   ⟨['B'], [], PRef.id 0⟩, ⟨['C'], [], PRef.id 0⟩]

/-- Claim C8, counterexample.  With children `[A, B, C]` (`A` at index
`i = 0`) and `p = 5` (so `i < p`), the claim demands that the final index
of `A` be `p - 1 = 4`.  `splice` clamps the start index to the array
length, so `insert(A, 5)` actually yields `[B, C, A]` with `A` at index
2. -/
theorem c8_counterexample :
    (getObj c8heap 0).children.indexOf 1 = 0 ∧
    ((0 : Int) < 5) ∧
    (∃ h2, SVGTreeSpec.insert c8heap 0 1 5 = Except.ok h2 ∧
      (getObj h2 0).children = [2, 3, 1] ∧
      (getObj h2 0).children.indexOf 1 = 2) ∧
    ((2 : Int) ≠ 5 - 1) := by
  exact ⟨rfl, by decide, ⟨_, rfl, rfl, rfl⟩, by decide⟩


theorem indexOf_insertIdx (l : List Nat) (a : Nat) (k : Nat) (ha : a ∉ l)
    (hk : k ≤ l.length) : (l.insertIdx k a).indexOf a = k := by
  induction l generalizing k with
  | nil =>
    match k, hk with
    | 0, _ => simp
  | cons x xs ih =>
    match k with
    | 0 => simp
    | k+1 =>
      have hax : x ≠ a := fun h => ha (h ▸ List.mem_cons_self x xs)
      rw [List.insertIdx_succ_cons, List.indexOf_cons_ne _ hax,
        ih k (fun hm => ha (List.mem_cons_of_mem x hm)) (by simpa using hk)]

/-- Claim C8, amended: when `c` is a child of `n` at index `i` with
`i < p` and `p` does not exceed the number of children, `insert(c, p)`
first decrements `p`, removes `c` and splices it back in, leaving `c` at
final index `p - 1`.  (For `p` beyond the child count `splice` clamps to
the end of the array and the final index is the last position instead,
as the counterexample shows.) -/
theorem c8_amended (h : Heap) (n c : Nat) (i : Nat) (p : Int)
    (hn : n < h.length) (hne : n ≠ c)
    (hpar : (getObj h c).parent = PRef.id n)
    (hcount : (getObj h n).children.count c = 1)
    (hidx : (getObj h n).children.indexOf c = i)
    (hip : (i : Int) < p)
    (hple : p ≤ ((getObj h n).children.length : Int)) :
    ∃ h2, SVGTreeSpec.insert h n c p = Except.ok h2 ∧
      (getObj h2 n).children = ((getObj h n).children.erase c).insertIdx (p - 1).toNat c ∧
      ((getObj h2 n).children.indexOf c : Int) = p - 1 := by
  have hmem : c ∈ (getObj h n).children := by
    have : 0 < (getObj h n).children.count c := by omega
    exact List.count_pos_iff.mp this
  have hpos : position h c = (i : Int) := by
    rw [position, hpar]
    simp [hmem, hidx]
  have hcond : ((getObj h c).parent = PRef.id n ∧ position h c < p) := ⟨hpar, by omega⟩
  rw [SVGTreeSpec.insert, if_pos hcond, hpar]
  have hrc : getObj (removeChild h n c) n
      = { getObj h n with children := (getObj h n).children.erase c } := by
    rw [removeChild, getObj_setObj_self _ _ _ hn]
  have hlen1 : ((getObj h n).children.erase c).length = (getObj h n).children.length - 1 :=
    List.length_erase_of_mem hmem
  have hsplice : spliceIndex ((getObj h n).children.erase c).length (p - 1) = (p - 1).toNat := by
    rw [spliceIndex, if_neg (by omega), hlen1]
    have h2 : (p - 1).toNat ≤ (getObj h n).children.length - 1 := by
      have hlenpos : 0 < (getObj h n).children.length := List.length_pos.mpr
        (fun hnil => by simp [hnil] at hmem)
      omega
    omega
  have hnotmem : c ∉ (getObj h n).children.erase c := by
    have := List.count_erase_self c (getObj h n).children
    intro hcmem
    have := List.count_pos_iff.mpr hcmem
    omega
  refine ⟨_, rfl, ?_, ?_⟩
  · rw [insertDo, setParentRef, getObj_setObj_other _ _ _ _ hne,
      getObj_setObj_self _ _ _ (by simpa using hn), hrc, hsplice]
  · rw [insertDo, setParentRef, getObj_setObj_other _ _ _ _ hne,
      getObj_setObj_self _ _ _ (by simpa using hn), hrc, hsplice]
    have hkle : (p - 1).toNat ≤ ((getObj h n).children.erase c).length := by
      rw [hlen1]
      have hlenpos : 0 < (getObj h n).children.length := List.length_pos.mpr
        (fun hnil => by simp [hnil] at hmem)
      omega
    rw [indexOf_insertIdx _ c _ hnotmem hkle]
    omega

/-- Witness for the amended C8 at the spec's own example: children
`[A, B, C]`, `insert(A, 2)` gives `[B, A, C]` with `A` at index 1. -/
theorem c8_amended_witness :
    ∃ h2, SVGTreeSpec.insert c8heap 0 1 2 = Except.ok h2 ∧
      (getObj h2 0).children = ((getObj c8heap 0).children.erase 1).insertIdx ((2 : Int) - 1).toNat 1 ∧
      ((getObj h2 0).children.indexOf 1 : Int) = 2 - 1 :=
  c8_amended c8heap 0 1 0 2 (by decide) (by decide) (by decide) (by decide)
    (by decide) (by decide) (by decide)

/-- Small heap for the C10 witness: a root with one child. -/
def rootHeap : Heap :=
  [⟨['r'], [1], PRef.null⟩, ⟨['c'], [], PRef.id 0⟩]

/-- Witness for C10: after detaching node 1 from `rootHeap`, `root()`
started at node 1 throws. -/
theorem c10_witness :
    1 < rootHeap.length ∧
    rootLoop (detach rootHeap 1) 5 (PRef.id 1) = Except.error () :=
  ⟨by decide, c10_detach_breaks_root.2.2.1 rootHeap 1 (by decide) 5⟩


/-! ## Claim C9: the parent/child invariant and acyclicity -/

/-- The parent map of the heap as a partial function on indices. -/
def parentF (h : Heap) (i : Nat) : Option Nat :=
  match (getObj h i).parent with
  | PRef.id p => some p
  | _ => none

/-- `k`-fold iteration of the parent map. -/
def chainK (h : Heap) : Nat → Nat → Option Nat
  | 0, i => some i
  | k+1, i => (parentF h i).bind (chainK h k)

/-- No node is its own strict ancestor. -/
def Acyclic (h : Heap) : Prop :=
  ∀ i k, chainK h (k + 1) i ≠ some i

/-- `a` is a strict ancestor of `b`. -/
def IsAncestor (h : Heap) (a b : Nat) : Prop :=
  ∃ k, chainK h (k + 1) b = some a

/-- Containment at one node: a node whose `parent` is an object is
listed exactly once by that parent and by no other node; a node with a
`null`/`undefined` parent is listed by nobody. -/
def InvAt (h : Heap) (c : Nat) : Prop :=
  match (getObj h c).parent with
  | PRef.id p => p < h.length ∧ (getObj h p).children.count c = 1 ∧
      ∀ q, q < h.length → q ≠ p → (getObj h q).children.count c = 0
  | _ => ∀ q, q < h.length → (getObj h q).children.count c = 0

/-- The parent/child containment invariant: children arrays hold valid
indices, and `InvAt` holds at every node. -/
def Inv (h : Heap) : Prop :=
  (∀ q, q < h.length → ∀ j ∈ (getObj h q).children, j < h.length) ∧
  ∀ c, c < h.length → InvAt h c

theorem invAt_id_iff (h : Heap) (c p : Nat) (hp : (getObj h c).parent = PRef.id p) :
    InvAt h c ↔ (p < h.length ∧ (getObj h p).children.count c = 1 ∧
      ∀ q, q < h.length → q ≠ p → (getObj h q).children.count c = 0) := by
  rw [InvAt, hp]

theorem invAt_null_iff (h : Heap) (c : Nat) (hp : (getObj h c).parent = PRef.null) :
    InvAt h c ↔ ∀ q, q < h.length → (getObj h q).children.count c = 0 := by
  rw [InvAt, hp]

theorem invAt_undef_iff (h : Heap) (c : Nat) (hp : (getObj h c).parent = PRef.undef) :
    InvAt h c ↔ ∀ q, q < h.length → (getObj h q).children.count c = 0 := by
  rw [InvAt, hp]

theorem chainK_add (h : Heap) (a b : Nat) :
    ∀ i, chainK h (a + b) i = (chainK h a i).bind (chainK h b) := by
  induction a with
  | zero => intro i; simp [chainK]
  | succ a ih =>
    intro i
    rw [show a + 1 + b = (a + b) + 1 from by omega]
    rw [chainK, chainK]
    cases hp : parentF h i with
    | none => simp
    | some j => simp [ih j]

theorem chainK_congr (h h2 : Heap) (hp : ∀ x, parentF h2 x = parentF h x) :
    ∀ k i, chainK h2 k i = chainK h k i := by
  intro k
  induction k with
  | zero => intro i; rfl
  | succ k ih =>
    intro i
    rw [chainK, chainK, hp i]
    cases parentF h i with
    | none => rfl
    | some j => simp [ih j]

theorem chainK_transfer (h h2 : Heap) (c : Nat)
    (hpar : ∀ x, x ≠ c → parentF h2 x = parentF h x) :
    ∀ m x, (∀ j, j < m → chainK h2 j x ≠ some c) → chainK h2 m x = chainK h m x := by
  intro m
  induction m with
  | zero => intro x _; rfl
  | succ m ih =>
    intro x hnc
    have hxc : x ≠ c := fun hcon => hnc 0 (Nat.succ_pos m) (by rw [hcon]; rfl)
    rw [chainK, chainK, hpar x hxc]
    cases hp : parentF h x with
    | none => rfl
    | some y =>
      have hy : ∀ j, j < m → chainK h2 j y ≠ some c := by
        intro j hj hcon
        refine hnc (j + 1) (by omega) ?_
        rw [chainK, hpar x hxc, hp]
        exact hcon
      simp [ih y hy]

theorem chainK_rotate (h2 : Heap) (m j x c : Nat)
    (hcyc : chainK h2 m x = some x) (hj : chainK h2 j x = some c) (hjm : j ≤ m) :
    chainK h2 m c = some c := by
  have h1 : chainK h2 (j + m) x = (chainK h2 j x).bind (chainK h2 m) := chainK_add h2 j m x
  have h2' : chainK h2 (m + j) x = (chainK h2 m x).bind (chainK h2 j) := chainK_add h2 m j x
  rw [hj] at h1
  rw [hcyc] at h2'
  simp at h1 h2'
  rw [show j + m = m + j from by omega] at h1
  rw [h1] at h2'
  rw [h2', hj]

theorem acyclic_update (h h2 : Heap) (c n : Nat)
    (hcn : c ≠ n)
    (hpar : ∀ x, x ≠ c → parentF h2 x = parentF h x)
    (hc : parentF h2 c = some n)
    (hanc : ¬ IsAncestor h c n)
    (hacy : Acyclic h) : Acyclic h2 := by
  have hccyc : ∀ k, chainK h2 (k + 1) c ≠ some c := by
    intro k
    induction k using Nat.strong_induction_on with
    | _ k ihk =>
      intro hcyc
      have hstep : chainK h2 k n = some c := by
        rw [chainK, hc] at hcyc
        simpa using hcyc
      by_cases hex : ∃ j, j < k ∧ chainK h2 j n = some c
      · obtain ⟨j, hjk, hjc⟩ := hex
        refine ihk j hjk ?_
        rw [chainK, hc]
        simpa using hjc
      · push_neg at hex
        have htr : chainK h2 k n = chainK h k n :=
          chainK_transfer h h2 c hpar k n (fun j hj hcon => hex j hj hcon)
        rw [htr] at hstep
        match k, hstep with
        | 0, hstep => exact hcn (by simpa [chainK] using hstep.symm)
        | k+1, hstep => exact hanc ⟨k, hstep⟩
  intro x k hcyc
  by_cases hex : ∃ j, j ≤ k + 1 ∧ chainK h2 j x = some c
  · obtain ⟨j, hjk, hjc⟩ := hex
    exact hccyc k (chainK_rotate h2 (k + 1) j x c hcyc hjc hjk)
  · push_neg at hex
    have htr : chainK h2 (k + 1) x = chainK h (k + 1) x :=
      chainK_transfer h h2 c hpar (k + 1) x (fun j hj hcon => hex j (by omega) hcon)
    rw [htr] at hcyc
    exact hacy x k hcyc


/-- The optional `child.parent.removeChild(child)` phase shared by
`append`, `prepend` and `insert` on their success paths. -/
def RemPhase (h : Heap) (c : Nat) (base : Heap) : Prop :=
  ((getObj h c).parent = PRef.null ∧ base = h) ∨
  (∃ p, (getObj h c).parent = PRef.id p ∧ base = removeChild h p c)

theorem remPhase_facts (h base : Heap) (c : Nat) (hinv : Inv h) (hc : c < h.length)
    (hrp : RemPhase h c base) :
    base.length = h.length ∧
    (∀ x, (getObj base x).parent = (getObj h x).parent) ∧
    (∀ q, q < h.length → (getObj base q).children.count c = 0) ∧
    (∀ q x, q < h.length → x ≠ c →
      (getObj base q).children.count x = (getObj h q).children.count x) ∧
    (∀ q, q < h.length → ∀ j, j ∈ (getObj base q).children → j ∈ (getObj h q).children) := by
  obtain ⟨hnull, hbase⟩ | ⟨p, hid, hbase⟩ := hrp <;> subst hbase
  · refine ⟨rfl, fun x => rfl, ?_, fun q x _ _ => rfl, fun q _ j hj => hj⟩
    intro q hq
    exact (invAt_null_iff _ c hnull).mp (hinv.2 c hc) q hq
  · obtain ⟨hplen, hcount1, hother⟩ := (invAt_id_iff h c p hid).mp (hinv.2 c hc)
    have hgp : ∀ x, getObj (removeChild h p c) x
        = if x = p then { getObj h p with children := (getObj h p).children.erase c }
          else getObj h x := by
      intro x
      by_cases hx : x = p
      · subst hx
        simp [removeChild, getObj_setObj_self _ _ _ hplen]
      · simp [removeChild, hx, getObj_setObj_other _ _ _ _ hx]
    refine ⟨by simp, ?_, ?_, ?_, ?_⟩
    · intro x
      rw [hgp x]
      split
      · next hx => rw [hx]
      · rfl
    · intro q hq
      rw [hgp q]
      split
      · next hqp =>
        show ((getObj h p).children.erase c).count c = 0
        rw [List.count_erase_self]
        omega
      · next hqp => exact hother q hq hqp
    · intro q x hq hxc
      rw [hgp q]
      split
      · next hqp =>
        show ((getObj h p).children.erase c).count x = _
        rw [List.count_erase_of_ne hxc]
        rw [hqp]
      · rfl
    · intro q hq j hj
      rw [hgp q] at hj
      revert hj
      split
      · next hqp =>
        intro hj
        rw [hqp]
        exact List.mem_of_mem_erase hj
      · exact fun hj => hj

/-- The second phase shared by `append`, `prepend` and `insert`: write
the new children array `L` of `n` and point `c`'s parent at `n`. -/
def attachHeap (base : Heap) (n c : Nat) (L : List Nat) : Heap :=
  setParentRef (setObj base n { getObj base n with children := L }) c (PRef.id n)

theorem appendDo_eq (h : Heap) (n c : Nat) :
    appendDo h n c = attachHeap h n c ((getObj h n).children ++ [c]) := rfl

theorem prependDo_eq (h : Heap) (n c : Nat) :
    prependDo h n c = attachHeap h n c (c :: (getObj h n).children) := rfl

theorem insertDo_eq (h : Heap) (n c : Nat) (pos : Int) :
    insertDo h n c pos = attachHeap h n c
      ((getObj h n).children.insertIdx
        (spliceIndex (getObj h n).children.length pos) c) := rfl

@[simp] theorem attachHeap_length (base : Heap) (n c : Nat) (L : List Nat) :
    (attachHeap base n c L).length = base.length := by
  simp [attachHeap]

theorem getObj_attachHeap (base : Heap) (n c : Nat) (L : List Nat)
    (hn : n < base.length) (hc : c < base.length) (hcn : n ≠ c) :
    ∀ x, getObj (attachHeap base n c L) x =
      if x = c then { getObj base c with parent := PRef.id n }
      else if x = n then { getObj base n with children := L }
      else getObj base x := by
  intro x
  by_cases hxc : x = c
  · subst hxc
    rw [if_pos rfl, attachHeap, setParentRef,
      getObj_setObj_self _ _ _ (by simpa using hc),
      getObj_setObj_other _ _ _ _ (fun hcon => hcn hcon.symm)]
  · rw [if_neg hxc, attachHeap, setParentRef, getObj_setObj_other _ _ _ _ hxc]
    by_cases hxn : x = n
    · subst hxn
      rw [if_pos rfl, getObj_setObj_self _ _ _ hn]
    · rw [if_neg hxn, getObj_setObj_other _ _ _ _ hxn]

theorem attach_preserves (h base : Heap) (n c : Nat) (L : List Nat)
    (hinv : Inv h) (hacy : Acyclic h)
    (hn : n < h.length) (hc : c < h.length) (hcn : n ≠ c)
    (hanc : ¬ IsAncestor h c n)
    (hrp : RemPhase h c base)
    (hLcount : ∀ x, L.count x
      = (getObj base n).children.count x + (if x = c then 1 else 0))
    (hLmem : ∀ j, j ∈ L → j ∈ (getObj base n).children ∨ j = c) :
    (attachHeap base n c L).length = h.length ∧
    Inv (attachHeap base n c L) ∧ Acyclic (attachHeap base n c L) := by
  obtain ⟨hblen, hbpar, hbcnt0, hbcnt, hbmem⟩ := remPhase_facts h base c hinv hc hrp
  have hg := getObj_attachHeap base n c L (hblen ▸ hn) (hblen ▸ hc) hcn
  have hlen2 : (attachHeap base n c L).length = h.length := by simp [hblen]
  have hparent2 : ∀ x, x ≠ c →
      (getObj (attachHeap base n c L) x).parent = (getObj h x).parent := by
    intro x hxc
    rw [hg x, if_neg hxc]
    by_cases hxn : x = n
    · rw [if_pos hxn, hxn]
      exact hbpar n
    · rw [if_neg hxn]
      exact hbpar x
  have hparc : (getObj (attachHeap base n c L) c).parent = PRef.id n := by
    rw [hg c, if_pos rfl]
  have hpF : ∀ x, x ≠ c → parentF (attachHeap base n c L) x = parentF h x := by
    intro x hxc
    rw [parentF, parentF, hparent2 x hxc]
  have hpc : parentF (attachHeap base n c L) c = some n := by
    rw [parentF, hparc]
  have hcnt2 : ∀ q x, q < h.length → x ≠ c →
      (getObj (attachHeap base n c L) q).children.count x
        = (getObj h q).children.count x := by
    intro q x hq hxc
    rw [hg q]
    by_cases hqc : q = c
    · rw [if_pos hqc]
      show (getObj base c).children.count x = (getObj h q).children.count x
      rw [hqc]
      exact hbcnt c x hc hxc
    · rw [if_neg hqc]
      by_cases hqn : q = n
      · rw [if_pos hqn]
        show L.count x = (getObj h q).children.count x
        rw [hLcount x, if_neg hxc, Nat.add_zero, hqn]
        exact hbcnt n x hn hxc
      · rw [if_neg hqn]
        exact hbcnt q x hq hxc
  have hcntc : ∀ q, q < h.length →
      (getObj (attachHeap base n c L) q).children.count c
        = if q = n then 1 else 0 := by
    intro q hq
    rw [hg q]
    by_cases hqc : q = c
    · have hqn : ¬ q = n := by
        rw [hqc]
        exact fun hcon => hcn hcon.symm
      rw [if_pos hqc, if_neg hqn]
      show (getObj base c).children.count c = 0
      exact hbcnt0 c hc
    · rw [if_neg hqc]
      by_cases hqn : q = n
      · rw [if_pos hqn, if_pos hqn]
        show L.count c = 1
        rw [hLcount c, if_pos rfl, hbcnt0 n hn]
      · rw [if_neg hqn, if_neg hqn]
        exact hbcnt0 q hq
  have hmem2 : ∀ q, q < h.length → ∀ j, j ∈ (getObj (attachHeap base n c L) q).children →
      j < h.length := by
    intro q hq j hj
    rw [hg q] at hj
    revert hj
    split
    · next hqc =>
      intro hj
      refine hinv.1 q hq j (hbmem q hq j ?_)
      rw [hqc]
      exact hj
    · split
      · next hqc hqn =>
        intro hj
        rcases hLmem j hj with hmem | rfl
        · exact hinv.1 n hn j (hbmem n hn j hmem)
        · exact hc
      · next hqc hqn =>
        intro hj
        exact hinv.1 q hq j (hbmem q hq j hj)
  refine ⟨hlen2, ⟨?_, ?_⟩, ?_⟩
  · intro q hq j hj
    rw [hlen2] at hq
    rw [hlen2]
    exact hmem2 q hq j hj
  · intro x hx
    rw [hlen2] at hx
    by_cases hxc : x = c
    · rw [hxc, invAt_id_iff _ c n hparc]
      refine ⟨by omega, ?_, ?_⟩
      · rw [hcntc n hn, if_pos rfl]
      · intro q hq hqn
        rw [hlen2] at hq
        rw [hcntc q hq, if_neg hqn]
    · cases hp : (getObj h x).parent with
      | id p =>
        obtain ⟨hplen, hc1, hc0⟩ := (invAt_id_iff h x p hp).mp (hinv.2 x hx)
        rw [invAt_id_iff _ x p (by rw [hparent2 x hxc, hp])]
        refine ⟨by omega, ?_, ?_⟩
        · rw [hcnt2 p x hplen hxc]
          exact hc1
        · intro q hq hqp
          rw [hlen2] at hq
          rw [hcnt2 q x hq hxc]
          exact hc0 q hq hqp
      | null =>
        have h0 := (invAt_null_iff h x hp).mp (hinv.2 x hx)
        rw [invAt_null_iff _ x (by rw [hparent2 x hxc, hp])]
        intro q hq
        rw [hlen2] at hq
        rw [hcnt2 q x hq hxc]
        exact h0 q hq
      | undef =>
        have h0 := (invAt_undef_iff h x hp).mp (hinv.2 x hx)
        rw [invAt_undef_iff _ x (by rw [hparent2 x hxc, hp])]
        intro q hq
        rw [hlen2] at hq
        rw [hcnt2 q x hq hxc]
        exact h0 q hq
  · exact acyclic_update h _ c n (Ne.symm hcn) hpF hpc hanc hacy


theorem acyclic_clear (h h2 : Heap) (c : Nat)
    (hpar : ∀ x, x ≠ c → parentF h2 x = parentF h x)
    (hc : parentF h2 c = none)
    (hacy : Acyclic h) : Acyclic h2 := by
  intro x k hcyc
  by_cases hex : ∃ j, j ≤ k + 1 ∧ chainK h2 j x = some c
  · obtain ⟨j, hjk, hjc⟩ := hex
    have hcc := chainK_rotate h2 (k + 1) j x c hcyc hjc hjk
    rw [chainK, hc] at hcc
    simp at hcc
  · push_neg at hex
    have htr := chainK_transfer h h2 c hpar (k + 1) x (fun j hj hcon => hex j (by omega) hcon)
    rw [htr] at hcyc
    exact hacy x k hcyc

theorem append_ok_inv (h h2 : Heap) (n c : Nat) (hok : append h n c = Except.ok h2) :
    ∃ base, RemPhase h c base ∧ h2 = appendDo base n c := by
  rw [append] at hok
  cases hp : (getObj h c).parent with
  | null =>
    rw [hp] at hok
    exact ⟨h, Or.inl ⟨hp, rfl⟩, (Except.ok.inj hok).symm⟩
  | undef =>
    rw [hp] at hok
    cases hok
  | id p =>
    rw [hp] at hok
    exact ⟨removeChild h p c, Or.inr ⟨p, hp, rfl⟩, (Except.ok.inj hok).symm⟩

theorem prepend_ok_inv (h h2 : Heap) (n c : Nat) (hok : prepend h n c = Except.ok h2) :
    ∃ base, RemPhase h c base ∧ h2 = prependDo base n c := by
  rw [prepend] at hok
  cases hp : (getObj h c).parent with
  | null =>
    rw [hp] at hok
    exact ⟨h, Or.inl ⟨hp, rfl⟩, (Except.ok.inj hok).symm⟩
  | undef =>
    rw [hp] at hok
    cases hok
  | id p =>
    rw [hp] at hok
    exact ⟨removeChild h p c, Or.inr ⟨p, hp, rfl⟩, (Except.ok.inj hok).symm⟩

theorem insert_ok_inv (h h2 : Heap) (n c : Nat) (pos : Int)
    (hok : SVGTreeSpec.insert h n c pos = Except.ok h2) :
    ∃ base pos1, RemPhase h c base ∧ h2 = insertDo base n c pos1 := by
  rw [SVGTreeSpec.insert] at hok
  cases hp : (getObj h c).parent with
  | null =>
    rw [hp] at hok
    exact ⟨h, _, Or.inl ⟨hp, rfl⟩, (Except.ok.inj hok).symm⟩
  | undef =>
    rw [hp] at hok
    cases hok
  | id p =>
    rw [hp] at hok
    exact ⟨removeChild h p c, _, Or.inr ⟨p, hp, rfl⟩, (Except.ok.inj hok).symm⟩

theorem spliceIndex_le (len : Nat) (pos : Int) : spliceIndex len pos ≤ len := by
  rw [spliceIndex]
  split <;> omega

theorem detach_preserves (h : Heap) (c : Nat) (hinv : Inv h) (hacy : Acyclic h)
    (hc : c < h.length) :
    Inv (detach h c) ∧ Acyclic (detach h c) := by
  have hrp : RemPhase h c (match (getObj h c).parent with
      | PRef.id p => removeChild h p c
      | _ => h) ∨
      ((getObj h c).parent = PRef.undef ∧ (match (getObj h c).parent with
      | PRef.id p => removeChild h p c
      | _ => h) = h) := by
    cases hp : (getObj h c).parent with
    | null => exact Or.inl (Or.inl ⟨hp, rfl⟩)
    | undef =>
      first
      | exact Or.inr ⟨rfl, rfl⟩
      | exact Or.inr ⟨hp, rfl⟩
    | id p => exact Or.inl (Or.inr ⟨p, hp, rfl⟩)
  have hbase : ∃ base, detach h c = setParentRef base c PRef.undef ∧
      base.length = h.length ∧
      (∀ x, (getObj base x).parent = (getObj h x).parent) ∧
      (∀ q, q < h.length → (getObj base q).children.count c = 0) ∧
      (∀ q x, q < h.length → x ≠ c →
        (getObj base q).children.count x = (getObj h q).children.count x) ∧
      (∀ q, q < h.length → ∀ j, j ∈ (getObj base q).children → j ∈ (getObj h q).children) := by
    rcases hrp with hrp | ⟨hp, heq⟩
    · obtain ⟨h1, h2, h3, h4, h5⟩ := remPhase_facts h _ c hinv hc hrp
      exact ⟨_, rfl, h1, h2, h3, h4, h5⟩
    · refine ⟨h, by rw [detach, heq], rfl, fun x => rfl, ?_, fun q x _ _ => rfl,
        fun q _ j hj => hj⟩
      exact fun q hq => (invAt_undef_iff h c hp).mp (hinv.2 c hc) q hq
  obtain ⟨base, hdef, hblen, hbpar, hbcnt0, hbcnt, hbmem⟩ := hbase
  rw [hdef]
  have hgd : ∀ x, getObj (setParentRef base c PRef.undef) x
      = if x = c then { getObj base c with parent := PRef.undef } else getObj base x := by
    intro x
    by_cases hx : x = c
    · rw [if_pos hx, hx, setParentRef, getObj_setObj_self _ _ _ (by omega)]
    · rw [if_neg hx, setParentRef, getObj_setObj_other _ _ _ _ hx]
  have hlen2 : (setParentRef base c PRef.undef).length = h.length := by
    simp [hblen]
  have hch : ∀ x, (getObj (setParentRef base c PRef.undef) x).children
      = (getObj base x).children := by
    intro x
    rw [hgd x]
    split
    · next hx => rw [hx]
    · rfl
  have hpar2 : ∀ x, x ≠ c →
      (getObj (setParentRef base c PRef.undef) x).parent = (getObj h x).parent := by
    intro x hx
    rw [hgd x, if_neg hx]
    exact hbpar x
  have hparc : (getObj (setParentRef base c PRef.undef) c).parent = PRef.undef := by
    rw [hgd c, if_pos rfl]
  constructor
  · constructor
    · intro q hq j hj
      rw [hlen2] at hq
      rw [hlen2]
      rw [hch q] at hj
      exact hinv.1 q hq j (hbmem q hq j hj)
    · intro x hx
      rw [hlen2] at hx
      by_cases hxc : x = c
      · rw [hxc, invAt_undef_iff _ c hparc]
        intro q hq
        rw [hlen2] at hq
        rw [hch q]
        exact hbcnt0 q hq
      · cases hp : (getObj h x).parent with
        | id p =>
          obtain ⟨hplen, hc1, hc0⟩ := (invAt_id_iff h x p hp).mp (hinv.2 x hx)
          rw [invAt_id_iff _ x p (by rw [hpar2 x hxc, hp])]
          refine ⟨by omega, ?_, ?_⟩
          · rw [hch p, hbcnt p x hplen hxc]
            exact hc1
          · intro q hq hqp
            rw [hlen2] at hq
            rw [hch q, hbcnt q x hq hxc]
            exact hc0 q hq hqp
        | null =>
          have h0 := (invAt_null_iff h x hp).mp (hinv.2 x hx)
          rw [invAt_null_iff _ x (by rw [hpar2 x hxc, hp])]
          intro q hq
          rw [hlen2] at hq
          rw [hch q, hbcnt q x hq hxc]
          exact h0 q hq
        | undef =>
          have h0 := (invAt_undef_iff h x hp).mp (hinv.2 x hx)
          rw [invAt_undef_iff _ x (by rw [hpar2 x hxc, hp])]
          intro q hq
          rw [hlen2] at hq
          rw [hch q, hbcnt q x hq hxc]
          exact h0 q hq
  · refine acyclic_clear h _ c (fun x hx => ?_) ?_ hacy
    · rw [parentF, parentF, hpar2 x hx]
    · rw [parentF, hparc]

/-- Out-of-range indices dereference to the default record, whose
`parent` is `null`. -/
theorem parentF_out (h : Heap) (x : Nat) (hx : h.length ≤ x) : parentF h x = none := by
  rw [parentF, getObj, List.getD_eq_default _ _ hx]

/-- A heap whose parent map strictly decreases indices has no cycles. -/
theorem acyclic_of_decreasing (h : Heap)
    (hdec : ∀ x p, parentF h x = some p → p < x) : Acyclic h := by
  have hlt : ∀ k i j, chainK h (k + 1) i = some j → j < i := by
    intro k
    induction k with
    | zero =>
      intro i j hj
      rw [chainK] at hj
      cases hp : parentF h i with
      | none =>
        rw [hp] at hj
        simp at hj
      | some m =>
        rw [hp] at hj
        have hm : chainK h 0 m = some j := hj
        rw [chainK] at hm
        rw [← Option.some.inj hm]
        exact hdec i m hp
    | succ k ih =>
      intro i j hj
      rw [chainK] at hj
      cases hp : parentF h i with
      | none =>
        rw [hp] at hj
        simp at hj
      | some m =>
        rw [hp] at hj
        have hm : chainK h (k + 1) m = some j := hj
        exact lt_trans (ih m j hm) (hdec i m hp)
  intro i k hcyc
  exact absurd (hlt k i i hcyc) (lt_irrefl i)

/-- Executable check for `InvAt` on a concrete heap. -/
def invAtB (h : Heap) (c : Nat) : Bool :=
  match (getObj h c).parent with
  | PRef.id p => decide (p < h.length) && ((getObj h p).children.count c == 1) &&
      (List.range h.length).all fun q => q == p || (getObj h q).children.count c == 0
  | _ => (List.range h.length).all fun q => (getObj h q).children.count c == 0

/-- Executable check for `Inv` on a concrete heap. -/
def invB (h : Heap) : Bool :=
  ((List.range h.length).all fun q =>
    (getObj h q).children.all fun j => decide (j < h.length)) &&
  (List.range h.length).all fun q => invAtB h q

theorem inv_of_invB (h : Heap) (hb : invB h = true) : Inv h := by
  simp only [invB, Bool.and_eq_true, List.all_eq_true, List.mem_range,
    decide_eq_true_eq] at hb
  obtain ⟨h1, h2⟩ := hb
  refine ⟨fun q hq j hj => h1 q hq j hj, ?_⟩
  intro c hc
  have hbc := h2 c hc
  cases hp : (getObj h c).parent with
  | id p =>
    rw [invAtB, hp] at hbc
    have hbc2 : (decide (p < h.length) && ((getObj h p).children.count c == 1) &&
        (List.range h.length).all fun q =>
          q == p || (getObj h q).children.count c == 0) = true := hbc
    simp only [Bool.and_eq_true, List.all_eq_true, List.mem_range,
      decide_eq_true_eq, beq_iff_eq, Bool.or_eq_true] at hbc2
    obtain ⟨⟨hplen, hcnt⟩, hall⟩ := hbc2
    rw [invAt_id_iff h c p hp]
    refine ⟨hplen, hcnt, ?_⟩
    intro q hq hqp
    rcases hall q hq with hq1 | hq2
    · exact absurd hq1 hqp
    · exact hq2
  | null =>
    rw [invAtB, hp] at hbc
    have hbc2 : ((List.range h.length).all fun q =>
        (getObj h q).children.count c == 0) = true := hbc
    simp only [List.all_eq_true, List.mem_range, beq_iff_eq] at hbc2
    rw [invAt_null_iff h c hp]
    exact hbc2
  | undef =>
    rw [invAtB, hp] at hbc
    have hbc2 : ((List.range h.length).all fun q =>
        (getObj h q).children.count c == 0) = true := hbc
    simp only [List.all_eq_true, List.mem_range, beq_iff_eq] at hbc2
    rw [invAt_undef_iff h c hp]
    exact hbc2

/-- A two-node heap: node 0 is a root whose only child is node 1. -/
def c9heap : Heap := [⟨[], [1], PRef.null⟩, ⟨[], [], PRef.id 0⟩]

/-- C9 is refuted as stated: on a well-formed two-node heap (root 0 with
child 1, which satisfies the containment invariant and acyclicity),
`removeChild` leaves node 1 with a dangling `parent` pointer, so the
invariant that a node with an object parent is listed by that parent
fails; and `append` called with an ancestor as the child succeeds and
creates a parent cycle (node 0 becomes its own ancestor). -/
theorem c9_counterexample :
    (Inv c9heap ∧ Acyclic c9heap) ∧
    ¬ Inv (removeChild c9heap 0 1) ∧
    append c9heap 1 0 = Except.ok (appendDo c9heap 1 0) ∧
    ¬ Acyclic (appendDo c9heap 1 0) := by
  refine ⟨⟨inv_of_invB c9heap (by decide), acyclic_of_decreasing c9heap ?_⟩, ?_, rfl, ?_⟩
  · intro x p hxp
    by_cases hx : x < 2
    · rcases (show x = 0 ∨ x = 1 by omega) with rfl | rfl
      · rw [show parentF c9heap 0 = none from rfl] at hxp
        cases hxp
      · rw [show parentF c9heap 1 = some 0 from rfl] at hxp
        injection hxp with hp0
        omega
    · rw [parentF_out c9heap x (by simp [c9heap]; omega)] at hxp
      cases hxp
  · intro hinv
    have h1 := hinv.2 1 (by decide)
    rw [invAt_id_iff (removeChild c9heap 0 1) 1 0 rfl] at h1
    exact absurd h1.2.1 (by decide)
  · intro hacy
    exact hacy 0 1 (by decide)

/-- C9 (amended): `append`, `prepend` and `insert` preserve the
containment invariant and acyclicity whenever the moved child is not
already an ancestor of its new parent, and `detach` preserves both
unconditionally.  (`removeChild` alone does not: it leaves the removed
child's `parent` pointer dangling, and attaching a node below one of its
own descendants creates a cycle — see the counterexample.) -/
theorem c9_amended (h : Heap) (n c : Nat) (pos : Int)
    (hinv : Inv h) (hacy : Acyclic h)
    (hn : n < h.length) (hc : c < h.length) (hcn : n ≠ c)
    (hanc : ¬ IsAncestor h c n) :
    (∀ h2, append h n c = Except.ok h2 →
      h2.length = h.length ∧ Inv h2 ∧ Acyclic h2) ∧
    (∀ h2, prepend h n c = Except.ok h2 →
      h2.length = h.length ∧ Inv h2 ∧ Acyclic h2) ∧
    (∀ h2, SVGTreeSpec.insert h n c pos = Except.ok h2 →
      h2.length = h.length ∧ Inv h2 ∧ Acyclic h2) ∧
    Inv (detach h c) ∧ Acyclic (detach h c) := by
  refine ⟨?_, ?_, ?_, detach_preserves h c hinv hacy hc⟩
  · intro h2 hok
    obtain ⟨base, hrp, heq⟩ := append_ok_inv h h2 n c hok
    subst heq
    rw [appendDo_eq]
    refine attach_preserves h base n c _ hinv hacy hn hc hcn hanc hrp ?_ ?_
    · intro x
      by_cases hx : x = c
      · subst hx
        simp [List.count_append]
      · simp [hx, Ne.symm hx, List.count_append, List.count_cons]
    · intro j hj
      rw [List.mem_append, List.mem_singleton] at hj
      exact hj
  · intro h2 hok
    obtain ⟨base, hrp, heq⟩ := prepend_ok_inv h h2 n c hok
    subst heq
    rw [prependDo_eq]
    refine attach_preserves h base n c _ hinv hacy hn hc hcn hanc hrp ?_ ?_
    · intro x
      by_cases hx : x = c
      · subst hx
        simp [List.count_cons]
      · simp [hx, Ne.symm hx, List.count_cons]
    · intro j hj
      rw [List.mem_cons] at hj
      exact hj.symm
  · intro h2 hok
    obtain ⟨base, pos1, hrp, heq⟩ := insert_ok_inv h h2 n c pos hok
    subst heq
    rw [insertDo_eq]
    have hperm := List.perm_insertNth c (getObj base n).children
      (spliceIndex_le (getObj base n).children.length pos1)
    refine attach_preserves h base n c _ hinv hacy hn hc hcn hanc hrp ?_ ?_
    · intro x
      rw [hperm.count_eq x]
      by_cases hx : x = c
      · subst hx
        simp [List.count_cons]
      · simp [hx, Ne.symm hx, List.count_cons]
    · intro j hj
      rw [hperm.mem_iff, List.mem_cons] at hj
      exact hj.symm

/-- A two-root heap used to instantiate the amended C9 theorem. -/
def c9wheap : Heap := [⟨[], [], PRef.null⟩, ⟨[], [], PRef.null⟩]

theorem c9wheap_inv : Inv c9wheap := inv_of_invB c9wheap (by decide)

theorem c9wheap_acyclic : Acyclic c9wheap := by
  refine acyclic_of_decreasing c9wheap ?_
  intro x p hxp
  by_cases hx : x < 2
  · rcases (show x = 0 ∨ x = 1 by omega) with rfl | rfl
    · rw [show parentF c9wheap 0 = none from rfl] at hxp
      cases hxp
    · rw [show parentF c9wheap 1 = none from rfl] at hxp
      cases hxp
  · rw [parentF_out c9wheap x (by simp [c9wheap]; omega)] at hxp
    cases hxp

theorem c9wheap_noanc : ¬ IsAncestor c9wheap 1 0 := by
  rintro ⟨k, hk⟩
  rw [chainK, show parentF c9wheap 0 = none from rfl] at hk
  simp at hk

/-- C9 witness: the amended theorem applied to the concrete two-root
heap, appending node 1 under node 0. -/
theorem c9_amended_witness :
    Inv c9wheap ∧ Acyclic c9wheap ∧ ¬ IsAncestor c9wheap 1 0 ∧
    Inv (appendDo c9wheap 0 1) ∧ Acyclic (appendDo c9wheap 0 1) :=
  ⟨c9wheap_inv, c9wheap_acyclic, c9wheap_noanc,
    ((c9_amended c9wheap 0 1 0 c9wheap_inv c9wheap_acyclic (by decide) (by decide)
      (by decide) c9wheap_noanc).1 (appendDo c9wheap 0 1) rfl).2⟩

/-! ## The layout engine: `_setLeafPositions`, `_calculateMargins`, `_realign`

Nodes carry a `collapsed` flag, a `_leafPosition` (a JavaScript number,
modelled as a rational: medians introduce halves), the two margin arrays
and the child list.  A JavaScript `undefined` margin is modelled as the
empty list `[]`: a margin array, once assigned, always starts out as the
singleton `[leafPosition]` and is therefore never empty, and the only two
reads that can see an unset margin are the truthiness guard
`if (siblingMargin)` in `_realign` (an empty inner loop, observationally
identical to the guard) and the merge loops of `_calculateMargins`, which
iterate zero times over a length-0 array.  -/

inductive VTree where
  | node (collapsed : Bool) (pos : ℚ) (lm rm : List ℚ) (children : List VTree)

def dfltV : VTree := VTree.node false 0 [] [] []

def VTree.col : VTree → Bool
  | VTree.node c _ _ _ _ => c

def VTree.pos : VTree → ℚ
  | VTree.node _ p _ _ _ => p

def VTree.lm : VTree → List ℚ
  | VTree.node _ _ l _ _ => l

def VTree.rm : VTree → List ℚ
  | VTree.node _ _ _ r _ => r

def VTree.children : VTree → List VTree
  | VTree.node _ _ _ _ ch => ch

/-- Position of the `i`-th element of a child array (in-range at every
call site, like the JavaScript indexings). -/
def posAt (ch : List VTree) (i : Nat) : ℚ := (ch.getD i dfltV).pos

mutual

/-- `_setLeafPositions` (lines 642-661): leaves and collapsed nodes take
the running counter; an internal node recurses over its children in
order and takes the median child position (the average of the two middle
children when their number is even). -/
def setLeafPositions : VTree → ℚ → VTree × ℚ
  | VTree.node col pos lm rm ch, start =>
    if ch.isEmpty || col then (VTree.node col start lm rm ch, start + 1)
    else
      let p := setLeafPositionsList ch start
      let ch2 := p.1
      let len := ch2.length
      let pos2 :=
        if len % 2 = 1 then posAt ch2 ((len - 1) / 2)
        else (posAt ch2 (len / 2 - 1) + posAt ch2 (len / 2)) / 2
      (VTree.node col pos2 lm rm ch2, p.2)

def setLeafPositionsList : List VTree → ℚ → List VTree × ℚ
  | [], start => ([], start)
  | c :: cs, start =>
    let p := setLeafPositions c start
    let q := setLeafPositionsList cs p.2
    (p.1 :: q.1, q.2)

end

/-- The merge loops of `_calculateMargins` (lines 744-758): entry `d` of
the child margin is combined into entry `d + 1` of the accumulator,
appending when the accumulator is too short (`d + 1 >= length`) and
leaving accumulator entries beyond the child margin untouched. -/
def longZipWith (f : ℚ → ℚ → ℚ) : List ℚ → List ℚ → List ℚ
  | [], old => old
  | fresh, [] => fresh
  | x :: xs, o :: os => f x o :: longZipWith f xs os

/-- One step of the left-margin merge loop: the child margin `c.lm` is
folded into the accumulator one level down. -/
def mergeL (acc : List ℚ) (c : VTree) : List ℚ :=
  match acc with
  | [] => []
  | a :: as => a :: longZipWith min c.lm as

def mergeR (acc : List ℚ) (c : VTree) : List ℚ :=
  match acc with
  | [] => []
  | a :: as => a :: longZipWith max c.rm as

/-- `_calculateMargins` (lines 728-760).  Both margins start as the
singleton `[leafPosition]`; a collapsed node stops there.  Otherwise
entry 0 is overwritten with the first (left) or last (right) child's
position when children exist, and each child's margin array is folded in
one level down with `Math.min` / `Math.max`. -/
def calculateMargins : VTree → VTree
  | VTree.node col pos _ _ ch =>
    if col then VTree.node col pos [pos] [pos] ch
    else
      let lm1 := if 0 < ch.length then [posAt ch 0] else [pos]
      let rm1 := if 0 < ch.length then [posAt ch (ch.length - 1)] else [pos]
      VTree.node col pos (ch.foldl mergeL lm1) (ch.foldl mergeR rm1) ch

def MAXQ : ℚ := 1000000

/-- `(d < thisMargin.length) ? thisMargin[d] : -dir * MAX` (line 820). -/
def marginAt (m : List ℚ) (dir : Int) (d : Nat) : ℚ :=
  if d < m.length then m.getD d 0 else (-(dir : ℚ)) * MAXQ

/-- The inner loop of the sibling scan (lines 819-822): one upper bound
on the shift for each entry of the sibling margin. -/
def sibConstraints (thisM sibM : List ℚ) (dir : Int) : List ℚ :=
  (List.range sibM.length).map fun d =>
    (dir : ℚ) * (sibM.getD d 0 - marginAt thisM dir d) - 1

/-- The header of the sibling scan loop (line 814): `si` starts at
`pos + dir` and steps by `dir` while it stays inside the array.  The
fuel `len + 1` dominates the number of in-range steps. -/
def scanLoop (len : Nat) (dir : Int) : Nat → Int → List Nat
  | 0, _ => []
  | fuel + 1, si =>
    if 0 ≤ si ∧ si < (len : Int) then si.toNat :: scanLoop len dir fuel (si + dir)
    else []

def scanIndices (pos piv len : Nat) : List Nat :=
  let dir : Int := if pos < piv then 1 else -1
  scanLoop len dir (len + 1) ((pos : Int) + dir)

/-- The sibling scan of `_realign` (lines 810-825) as the final shift
`dir * min(MAX, constraints)`.  The sibling at `si` contributes the
constraints of its facing margin; an unset margin contributes none. -/
def scanShift (arr : List VTree) (pos piv : Nat) : ℚ :=
  let dir : Int := if pos < piv then 1 else -1
  let me := arr.getD pos dfltV
  let thisM := if pos < piv then me.rm else me.lm
  let cs := ((scanIndices pos piv arr.length).map fun si =>
    sibConstraints thisM
      (if pos < piv then (arr.getD si dfltV).lm else (arr.getD si dfltV).rm)
      dir).join
  (dir : ℚ) * List.foldl min MAXQ cs

mutual

/-- `visualQueue()` restricted shift (lines 834-837): every node of the
breadth-first queue — which skips the children of collapsed nodes — has
its `_leafPosition` moved; margins of descendants are not touched. -/
def shiftQueue (q : ℚ) : VTree → VTree
  | VTree.node col pos lm rm ch =>
    VTree.node col (pos + q) lm rm (if col then ch else shiftQueueList q ch)

def shiftQueueList (q : ℚ) : List VTree → List VTree
  | [] => []
  | c :: cs => shiftQueue q c :: shiftQueueList q cs

end

/-- Lines 827-837: the shifted node moves its own position and both of
its margin arrays, and its visible descendants move position only. -/
def applyShift (q : ℚ) (t : VTree) : VTree :=
  match shiftQueue q t with
  | VTree.node col pos lm rm ch =>
    VTree.node col pos (lm.map fun x => x + q) (rm.map fun x => x + q) ch

/-- `pivot = (L % 2 == 1) ? ((L - 1) / 2) : (L / 2 - 1)` (lines 778 and
803). -/
def pivotOf (L : Nat) : Nat := if L % 2 = 1 then (L - 1) / 2 else L / 2 - 1

/-- The processing order of the two child loops of `_realign` (lines
779-780): `pivot` down to `0`, then `pivot + 1` up to `L - 1`. -/
def pivotOrder (L : Nat) : List Nat :=
  (List.range (pivotOf L + 1)).reverse ++
    List.range' (pivotOf L + 1) (L - (pivotOf L + 1))

/-- One turn of the realignment of a child (the tail of `_realign`,
lines 799-838, executed inside the child's own recursive call): the
child's fully realigned-and-measured subtree `subs[i]` replaces slot `i`
and, unless the child sits at the pivot, it is shifted by the sibling
scan read off the current state of the array. -/
def realignStep (piv : Nat) (subs : List VTree) (arr : List VTree) (i : Nat) : List VTree :=
  let c := subs.getD i dfltV
  if i = piv then arr.set i c
  else
    let arr2 := arr.set i c
    arr2.set i (applyShift (scanShift arr2 i piv) c)

/-- The two child loops of `_realign`.  `subs` holds the result of each
child's own recursive realignment; precomputing it is sound because a
child's recursion reads only its own subtree, which no sibling turn
touches, and a sibling's margins are only ever read after that sibling's
own turn (before it they are unset and the scan guard skips them). -/
def shiftPhase (ch subs : List VTree) : List VTree :=
  (pivotOrder ch.length).foldl (realignStep (pivotOf ch.length) subs) ch

mutual

/-- `_realign` on a node that has a parent (lines 770-838 minus the root
branch): realign the children in pivot order with their sibling shifts,
move the node to the median of its pivot children (lines 782-785), then
compute this node's margins (line 799); the caller performs this node's
own sibling shift. -/
def realignSub : VTree → VTree
  | VTree.node col pos lm rm ch =>
    if !col && !ch.isEmpty then
      let subs := realignSubList ch
      let ch2 := shiftPhase ch subs
      let piv := pivotOf ch2.length
      let pos2 :=
        if ch2.length % 2 = 0 then (posAt ch2 piv + posAt ch2 (piv + 1)) / 2
        else posAt ch2 piv
      calculateMargins (VTree.node col pos2 lm rm ch2)
    else calculateMargins (VTree.node col pos lm rm ch)

def realignSubList : List VTree → List VTree
  | [] => []
  | c :: cs => realignSub c :: realignSubList cs

end

mutual

/-- The root cleanup of `_realign` (lines 788-797): margins of every
node of the visual queue are deleted. -/
def clearMargins : VTree → VTree
  | VTree.node col pos _ _ ch =>
    VTree.node col pos [] [] (if col then ch else clearMarginsList ch)

def clearMarginsList : List VTree → List VTree
  | [] => []
  | c :: cs => clearMargins c :: clearMarginsList cs

end

/-- `_realign` on the root (no parent): the recursive part runs, then
margins are cleaned up instead of computing the root's own margins and
shift. -/
def realignRoot : VTree → VTree
  | VTree.node col pos lm rm ch =>
    if !col && !ch.isEmpty then
      let subs := realignSubList ch
      let ch2 := shiftPhase ch subs
      let piv := pivotOf ch2.length
      let pos2 :=
        if ch2.length % 2 = 0 then (posAt ch2 piv + posAt ch2 (piv + 1)) / 2
        else posAt ch2 piv
      clearMargins (VTree.node col pos2 lm rm ch2)
    else clearMargins (VTree.node col pos lm rm ch)

/-- The layout pipeline of `render`: leaf positions, then realignment. -/
def layout (t : VTree) : VTree := realignRoot (setLeafPositions t 0).1

/-! ## Claim C5: margin profiles -/

mutual

/-- The margin profile the code actually maintains, defined by recursion
on the tree: a collapsed node or a leaf is the single point `[pos]`;
otherwise the head is the FIRST child's position (the `margin[0]`
overwrite of lines 733-735) and entry `d + 1` is the depthwise `min`
over the children's profiles at entry `d`. -/
def mprofL : VTree → List ℚ
  | VTree.node col pos _ _ ch =>
    if col || ch.isEmpty then [pos] else posAt ch 0 :: mprofLList ch

def mprofLList : List VTree → List ℚ
  | [] => []
  | c :: cs => longZipWith min (mprofL c) (mprofLList cs)

/-- Right-margin profile: head is the LAST child's position (lines
736-739), deeper entries are depthwise `max` over children. -/
def mprofR : VTree → List ℚ
  | VTree.node col pos _ _ ch =>
    if col || ch.isEmpty then [pos] else posAt ch (ch.length - 1) :: mprofRList ch

def mprofRList : List VTree → List ℚ
  | [] => []
  | c :: cs => longZipWith max (mprofR c) (mprofRList cs)

end

/-- Depthwise combination of the children's stored left margins, in the
right-fold order of `mprofLList`. -/
def combL : List VTree → List ℚ
  | [] => []
  | c :: cs => longZipWith min c.lm (combL cs)

def combR : List VTree → List ℚ
  | [] => []
  | c :: cs => longZipWith max c.rm (combR cs)

theorem longZipWith_nil_right (f : ℚ → ℚ → ℚ) (l : List ℚ) :
    longZipWith f l [] = l := by
  cases l <;> rfl

theorem longZipWith_nil_left (f : ℚ → ℚ → ℚ) (l : List ℚ) :
    longZipWith f [] l = l := by
  cases l <;> rfl

theorem longZipWith_comm (f : ℚ → ℚ → ℚ) (hf : ∀ a b, f a b = f b a) :
    ∀ a b, longZipWith f a b = longZipWith f b a := by
  intro a
  induction a with
  | nil => intro b; rw [longZipWith_nil_right, longZipWith_nil_left]
  | cons x xs ih =>
    intro b
    cases b with
    | nil => rfl
    | cons y ys => rw [longZipWith, longZipWith, hf, ih]

theorem longZipWith_assoc (f : ℚ → ℚ → ℚ)
    (hf : ∀ a b c, f (f a b) c = f a (f b c)) :
    ∀ a b c, longZipWith f (longZipWith f a b) c
      = longZipWith f a (longZipWith f b c) := by
  intro a
  induction a with
  | nil => intro b c; rw [longZipWith_nil_left, longZipWith_nil_left]
  | cons x xs ih =>
    intro b c
    cases b with
    | nil =>
      rw [longZipWith_nil_left]
      cases c <;> rfl
    | cons y ys =>
      cases c with
      | nil => rw [longZipWith_nil_right, longZipWith_nil_right]
      | cons z zs => rw [longZipWith, longZipWith, longZipWith, longZipWith, hf, ih]

theorem foldl_mergeL (ch : List VTree) :
    ∀ (a : ℚ) (as : List ℚ),
      ch.foldl mergeL (a :: as) = a :: longZipWith min (combL ch) as := by
  induction ch with
  | nil => intro a as; rw [combL, longZipWith_nil_left]; rfl
  | cons c cs ih =>
    intro a as
    rw [List.foldl_cons, show mergeL (a :: as) c = a :: longZipWith min c.lm as from rfl,
      ih, combL]
    rw [longZipWith_comm min min_comm (combL cs) (longZipWith min c.lm as)]
    rw [longZipWith_assoc min min_assoc c.lm as (combL cs)]
    rw [longZipWith_comm min min_comm as (combL cs)]
    rw [← longZipWith_assoc min min_assoc c.lm (combL cs) as]

theorem foldl_mergeR (ch : List VTree) :
    ∀ (a : ℚ) (as : List ℚ),
      ch.foldl mergeR (a :: as) = a :: longZipWith max (combR ch) as := by
  induction ch with
  | nil => intro a as; rw [combR, longZipWith_nil_left]; rfl
  | cons c cs ih =>
    intro a as
    rw [List.foldl_cons, show mergeR (a :: as) c = a :: longZipWith max c.rm as from rfl,
      ih, combR]
    rw [longZipWith_comm max max_comm (combR cs) (longZipWith max c.rm as)]
    rw [longZipWith_assoc max max_assoc c.rm as (combR cs)]
    rw [longZipWith_comm max max_comm as (combR cs)]
    rw [← longZipWith_assoc max max_assoc c.rm (combR cs) as]

theorem combL_eq (ch : List VTree) (h : ∀ c ∈ ch, c.lm = mprofL c) :
    combL ch = mprofLList ch := by
  induction ch with
  | nil => rfl
  | cons c cs ih =>
    rw [combL, mprofLList, h c (List.mem_cons_self c cs),
      ih (fun x hx => h x (List.mem_cons_of_mem c hx))]

theorem combR_eq (ch : List VTree) (h : ∀ c ∈ ch, c.rm = mprofR c) :
    combR ch = mprofRList ch := by
  induction ch with
  | nil => rfl
  | cons c cs ih =>
    rw [combR, mprofRList, h c (List.mem_cons_self c cs),
      ih (fun x hx => h x (List.mem_cons_of_mem c hx))]

theorem calculateMargins_profiles (t : VTree)
    (hl : ∀ c ∈ t.children, c.lm = mprofL c)
    (hr : ∀ c ∈ t.children, c.rm = mprofR c) :
    (calculateMargins t).lm = mprofL t ∧ (calculateMargins t).rm = mprofR t := by
  obtain ⟨col, pos, lm, rm, ch⟩ := t
  cases col with
  | true => constructor <;> rfl
  | false =>
    cases ch with
    | nil => constructor <;> rfl
    | cons c cs =>
      have hch : (VTree.node false pos lm rm (c :: cs)).children = c :: cs := rfl
      rw [hch] at hl hr
      have hcalc : calculateMargins (VTree.node false pos lm rm (c :: cs))
          = VTree.node false pos ((c :: cs).foldl mergeL [posAt (c :: cs) 0])
              ((c :: cs).foldl mergeR [posAt (c :: cs) ((c :: cs).length - 1)]) (c :: cs) := by
        rw [calculateMargins]
        simp
      rw [hcalc]
      constructor
      · show (c :: cs).foldl mergeL [posAt (c :: cs) 0] = mprofL (VTree.node false pos lm rm (c :: cs))
        rw [foldl_mergeL, longZipWith_nil_right, combL_eq _ hl]
        rfl
      · show (c :: cs).foldl mergeR [posAt (c :: cs) ((c :: cs).length - 1)]
          = mprofR (VTree.node false pos lm rm (c :: cs))
        rw [foldl_mergeR, longZipWith_nil_right, combR_eq _ hr]
        rfl

/-- A two-leaf internal node with the leaf positions `_setLeafPositions`
would give it. -/
def c5tree : VTree :=
  VTree.node false 0 [] []
    [VTree.node false 0 [] [] [], VTree.node false 1 [] [] []]

/-- C5 is refuted as stated for depth 0: realigning a non-root internal
node with two leaf children at positions 0 and 1 puts the node itself at
position 1/2, but `_calculateMargins` overwrites `leftMargin[0]` /
`rightMargin[0]` with the first / last child's position (lines 733-739),
so `leftMargin[0] = 0 ≠ 1/2 = leafPosition`. -/
theorem c5_counterexample :
    (realignSub c5tree).pos = 1 / 2 ∧
    (realignSub c5tree).lm = [0, 0] ∧
    (realignSub c5tree).rm = [1, 1] ∧
    ¬ ((realignSub c5tree).lm.getD 0 0 = (realignSub c5tree).pos ∧
       (realignSub c5tree).rm.getD 0 0 = (realignSub c5tree).pos) := by
  simp [realignSub, realignSubList, c5tree, shiftPhase, pivotOrder, pivotOf,
    realignStep, scanShift, scanIndices, scanLoop, sibConstraints, marginAt,
    MAXQ, applyShift, shiftQueue, shiftQueueList, calculateMargins, mergeL,
    mergeR, longZipWith, posAt, dfltV, VTree.lm, VTree.rm, VTree.pos,
    VTree.children, VTree.col, List.range, List.range.loop]

/-- C5 (amended): immediately after `_calculateMargins` on a node whose
children carry correct margin profiles, the node's stored margins equal
the recursive profiles `mprofL` / `mprofR`: a collapsed node or leaf has
the single-point profile `[leafPosition]`; an expanded internal node has
`leftMargin[0]` equal to its FIRST child's position and `rightMargin[0]`
to its LAST child's position (not its own `leafPosition`), and entry
`d + 1` is the depthwise min / max of the children's profile entries at
depth `d`. -/
theorem c5_amended (t : VTree)
    (hc : ∀ c ∈ t.children, c.lm = mprofL c ∧ c.rm = mprofR c) :
    ((calculateMargins t).lm = mprofL t ∧ (calculateMargins t).rm = mprofR t) ∧
    ((t.col = true ∨ t.children = []) → mprofL t = [t.pos] ∧ mprofR t = [t.pos]) ∧
    (t.col = false → t.children ≠ [] →
      (mprofL t).getD 0 0 = posAt t.children 0 ∧
      (mprofR t).getD 0 0 = posAt t.children (t.children.length - 1)) := by
  refine ⟨calculateMargins_profiles t (fun c h => (hc c h).1) (fun c h => (hc c h).2), ?_, ?_⟩
  · intro h
    obtain ⟨col, pos, lm, rm, ch⟩ := t
    rcases h with h | h
    · rw [show VTree.col (VTree.node col pos lm rm ch) = col from rfl] at h
      subst h
      constructor <;> rfl
    · rw [show VTree.children (VTree.node col pos lm rm ch) = ch from rfl] at h
      subst h
      rw [mprofL, mprofR]
      simp [VTree.pos]
  · intro h1 h2
    obtain ⟨col, pos, lm, rm, ch⟩ := t
    rw [show VTree.col (VTree.node col pos lm rm ch) = col from rfl] at h1
    rw [show VTree.children (VTree.node col pos lm rm ch) = ch from rfl] at h2 ⊢
    subst h1
    cases ch with
    | nil => exact absurd rfl h2
    | cons c cs => constructor <;> rfl

/-- Concrete instance for the amended C5: the two-leaf node with its
children's margins already holding their (single-point) profiles. -/
def c5w : VTree :=
  VTree.node false (1 / 2) [] []
    [VTree.node false 0 [0] [0] [], VTree.node false 1 [1] [1] []]

/-- C5 witness: the amended theorem applied to `c5w`. -/
theorem c5_amended_witness :
    (∀ c ∈ c5w.children, c.lm = mprofL c ∧ c.rm = mprofR c) ∧
    ((calculateMargins c5w).lm = mprofL c5w ∧ (calculateMargins c5w).rm = mprofR c5w) :=
  ⟨by decide, (c5_amended c5w (by decide)).1⟩

/-! ## Claim C6: the direction of the sibling scan -/

theorem scanLoop_pos (len : Nat) : ∀ (fuel : Nat) (si : Int), 0 ≤ si →
    (len : Int) - si < fuel →
    scanLoop len 1 fuel si = List.range' si.toNat (len - si.toNat) := by
  intro fuel
  induction fuel with
  | zero =>
    intro si h0 hf
    have h1 : len - si.toNat = 0 := by omega
    rw [h1]
    rfl
  | succ fuel ih =>
    intro si h0 hf
    rw [scanLoop]
    by_cases hin : si < (len : Int)
    · rw [if_pos ⟨h0, hin⟩, ih (si + 1) (by omega) (by omega)]
      have h1 : len - si.toNat = (len - (si + 1).toNat) + 1 := by omega
      have h2 : (si + 1).toNat = si.toNat + 1 := by omega
      rw [h1, List.range'_succ, h2]
    · rw [if_neg (fun hcon => hin hcon.2)]
      have : len - si.toNat = 0 := by omega
      rw [this]
      rfl

theorem scanLoop_neg (len : Nat) : ∀ (fuel : Nat) (si : Int), 0 ≤ si →
    si < (len : Int) → si < fuel →
    scanLoop len (-1) fuel si = (List.range (si.toNat + 1)).reverse := by
  intro fuel
  induction fuel with
  | zero => intro si h0 hl hf; omega
  | succ fuel ih =>
    intro si h0 hl hf
    rw [scanLoop, if_pos ⟨h0, hl⟩]
    by_cases h1 : 0 ≤ si - 1
    · rw [show si + -1 = si - 1 from by omega, ih (si - 1) h1 (by omega) (by omega)]
      have h2 : (si - 1).toNat + 1 = si.toNat := by omega
      rw [h2, show si.toNat + 1 = si.toNat + 1 from rfl, List.range_succ]
      simp
    · have hsi : si = 0 := by omega
      subst hsi
      have hnil : scanLoop len (-1) fuel (0 + -1) = [] := by
        cases fuel with
        | zero => rfl
        | succ fuel => rw [scanLoop, if_neg (fun hcon => by omega)]
      rw [hnil]
      rfl

/-- The three-node child array for the counterexample: children 0 and 1
already realigned (margins set), child 2 still unrealigned. -/
def c6arr : List VTree :=
  [VTree.node false 0 [0] [0] [], VTree.node false 5 [5] [5] [],
   VTree.node false 9 [] [] []]

/-- C6 is refuted as stated: for a child at `pos = 0` with `pivot = 1`
among three siblings, `dir = (pos < pivot) ? 1 : -1` makes the scan
proceed RIGHTWARD over indices `[1, 2]` (toward the pivot side), not
leftward as claimed — and the resulting shift `4` is bounded by the
RIGHT sibling's left margin (`5 - 0 - 1`), not left unconstrained at
`MAX`. -/
theorem c6_counterexample :
    scanIndices 0 1 3 = [1, 2] ∧
    ¬ (∀ j ∈ scanIndices 0 1 3, j < 0) ∧
    scanShift c6arr 0 1 = 4 ∧
    (4 : ℚ) ≠ MAXQ := by
  refine ⟨by decide, by decide, ?_, by norm_num [MAXQ]⟩
  norm_num [scanShift, scanIndices, scanLoop, sibConstraints, marginAt, MAXQ,
    c6arr, dfltV, VTree.lm, VTree.rm, VTree.pos, VTree.children, VTree.col,
    List.range, List.range.loop, min_def]

/-- C6 (amended): the sibling scan runs from the node toward the side of
the pivot — when `pos < pivot` it visits exactly the indices
`pos + 1, …, L - 1` in increasing order (all greater than `pos`), and
when `pos > pivot` exactly `pos - 1, …, 0` in decreasing order (all less
than `pos`); the smallest permissible shift over the scanned siblings
that carry margins is then applied. -/
theorem c6_amended (pos piv len : Nat) :
    (pos < piv →
      scanIndices pos piv len = List.range' (pos + 1) (len - (pos + 1)) ∧
      ∀ j ∈ scanIndices pos piv len, pos < j) ∧
    (piv < pos → pos < len →
      scanIndices pos piv len = (List.range pos).reverse ∧
      ∀ j ∈ scanIndices pos piv len, j < pos) := by
  constructor
  · intro hlt
    have heq : scanIndices pos piv len = List.range' (pos + 1) (len - (pos + 1)) := by
      rw [scanIndices]
      simp only [if_pos hlt]
      rw [scanLoop_pos len (len + 1) ((pos : Int) + 1) (by omega) (by omega)]
      have : ((pos : Int) + 1).toNat = pos + 1 := by omega
      rw [this]
    refine ⟨heq, ?_⟩
    intro j hj
    rw [heq, List.mem_range'_1] at hj
    omega
  · intro hgt hlen
    have hnotlt : ¬ pos < piv := by omega
    have heq : scanIndices pos piv len = (List.range pos).reverse := by
      rw [scanIndices]
      simp only [if_neg hnotlt]
      rw [show (pos : Int) + -1 = (pos : Int) - 1 from by omega,
        scanLoop_neg len (len + 1) ((pos : Int) - 1) (by omega) (by omega) (by omega)]
      have : ((pos : Int) - 1).toNat + 1 = pos := by omega
      rw [this]
    refine ⟨heq, ?_⟩
    intro j hj
    rw [heq, List.mem_reverse, List.mem_range] at hj
    exact hj

/-- C6 witness: the amended scan characterization at `pos = 0` and
`pos = 2` with pivot 1 among three siblings. -/
theorem c6_amended_witness :
    scanIndices 0 1 3 = List.range' 1 2 ∧
    scanIndices 2 1 3 = (List.range 2).reverse ∧
    (∀ j ∈ scanIndices 0 1 3, 0 < j) ∧
    (∀ j ∈ scanIndices 2 1 3, j < 2) :=
  ⟨((c6_amended 0 1 3).1 (by decide)).1,
   ((c6_amended 2 1 3).2 (by decide) (by decide)).1,
   ((c6_amended 0 1 3).1 (by decide)).2,
   ((c6_amended 2 1 3).2 (by decide) (by decide)).2⟩

/-! ## Claim C2: the no-overlap guarantee -/

/-- Array access as `_realign` performs it on the sibling array. -/
def vget (l : List VTree) (i : Nat) : VTree := l.getD i dfltV

theorem vget_set_self (l : List VTree) (i : Nat) (x : VTree) (hi : i < l.length) :
    vget (l.set i x) i = x := by
  simp [vget, List.getD, List.getElem?_set_self' , hi]

theorem vget_set_ne (l : List VTree) (i j : Nat) (x : VTree) (hij : j ≠ i) :
    vget (l.set i x) j = vget l j := by
  simp [vget, List.getD, List.getElem?_set_ne (fun h => hij h.symm)]

/-- A node's stored margins agree with its margin profiles. -/
def ProfOK (t : VTree) : Prop := t.lm = mprofL t ∧ t.rm = mprofR t

/-- Unit gap between a right-margin profile and a left-margin profile at
every relative depth present in both. -/
def Gap1 (a b : List ℚ) : Prop :=
  ∀ d, d < a.length → d < b.length → a.getD d 0 + 1 ≤ b.getD d 0

/-- The no-overlap relation between an earlier sibling and a later one.
The spec's "sibling closer to the axis origin" is the one with the
smaller index: its right margin stays a unit left of the other's left
margin. -/
def PairOK (a b : VTree) : Prop := Gap1 (mprofR a) (mprofL b)

mutual

/-- After realignment, the visible children of every node are pairwise
separated: each earlier sibling's right-margin profile stays at least
one unit left of each later sibling's left-margin profile at every
common relative depth.  Hidden subtrees (below a collapsed node) are
exempt: `_realign` never visits them. -/
def NoOverlap : VTree → Prop
  | VTree.node col _ _ _ ch =>
    if col then True else List.Pairwise PairOK ch ∧ NoOverlapList ch

def NoOverlapList : List VTree → Prop
  | [] => True
  | c :: cs => NoOverlap c ∧ NoOverlapList cs

end

theorem noOverlapList_iff (l : List VTree) :
    NoOverlapList l ↔ ∀ c ∈ l, NoOverlap c := by
  induction l with
  | nil => simp [NoOverlapList]
  | cons c cs ih => simp [NoOverlapList, ih]

theorem mprofL_margins (col : Bool) (pos : ℚ) (lm rm lm2 rm2 : List ℚ) (ch : List VTree) :
    mprofL (VTree.node col pos lm rm ch) = mprofL (VTree.node col pos lm2 rm2 ch) := by
  rw [mprofL, mprofL]

theorem mprofR_margins (col : Bool) (pos : ℚ) (lm rm lm2 rm2 : List ℚ) (ch : List VTree) :
    mprofR (VTree.node col pos lm rm ch) = mprofR (VTree.node col pos lm2 rm2 ch) := by
  rw [mprofR, mprofR]

theorem noOverlap_margins (col : Bool) (pos : ℚ) (lm rm lm2 rm2 : List ℚ) (ch : List VTree) :
    NoOverlap (VTree.node col pos lm rm ch) ↔ NoOverlap (VTree.node col pos lm2 rm2 ch) := by
  rw [NoOverlap, NoOverlap]

theorem getD_map_add (l : List ℚ) (q : ℚ) (d : Nat) (hd : d < l.length) :
    (l.map fun x => x + q).getD d 0 = l.getD d 0 + q := by
  rw [List.getD_eq_getElem _ _ (by simpa using hd), List.getD_eq_getElem _ _ hd,
    List.getElem_map]

theorem gap1_map_add (a b : List ℚ) (q : ℚ) :
    Gap1 (a.map fun x => x + q) (b.map fun x => x + q) ↔ Gap1 a b := by
  constructor
  · intro h d hda hdb
    have := h d (by simpa using hda) (by simpa using hdb)
    rw [getD_map_add a q d hda, getD_map_add b q d hdb] at this
    linarith
  · intro h d hda hdb
    rw [List.length_map] at hda hdb
    rw [getD_map_add a q d hda, getD_map_add b q d hdb]
    have := h d hda hdb
    linarith

theorem longZipWith_map_add (f : ℚ → ℚ → ℚ) (q : ℚ)
    (hf : ∀ a b, f (a + q) (b + q) = f a b + q) :
    ∀ a b, longZipWith f (a.map fun x => x + q) (b.map fun x => x + q)
      = (longZipWith f a b).map fun x => x + q := by
  intro a
  induction a with
  | nil =>
    intro b
    rw [List.map_nil, longZipWith_nil_left, longZipWith_nil_left]
  | cons x xs ih =>
    intro b
    cases b with
    | nil => rw [List.map_nil, longZipWith_nil_right, longZipWith_nil_right]
    | cons y ys =>
      rw [List.map_cons, List.map_cons, longZipWith, longZipWith, List.map_cons,
        hf, ih]

theorem posAt_cons_zero (x : VTree) (l : List VTree) : posAt (x :: l) 0 = x.pos := rfl

theorem shiftQueue_pos (q : ℚ) (t : VTree) : (shiftQueue q t).pos = t.pos + q := by
  obtain ⟨col, pos, lm, rm, ch⟩ := t
  rw [shiftQueue]
  rfl

theorem shiftQueueList_eq_map (q : ℚ) (ch : List VTree) :
    shiftQueueList q ch = ch.map (shiftQueue q) := by
  induction ch with
  | nil => rfl
  | cons c cs ih => rw [shiftQueueList, List.map_cons, ih]

mutual

theorem shiftQueue_mprofL (q : ℚ) : ∀ (t : VTree),
    mprofL (shiftQueue q t) = (mprofL t).map fun x => x + q
  | VTree.node col pos lm rm ch => by
    rw [shiftQueue]
    cases col with
    | true => rw [mprofL, mprofL]; simp
    | false =>
      cases ch with
      | nil => rw [shiftQueueList, mprofL, mprofL]; simp
      | cons c cs =>
        rw [shiftQueueList, mprofL, mprofL]
        simp only [List.isEmpty_cons, Bool.false_or, if_neg (by decide : ¬ (false : Bool) = true)]
        rw [List.map_cons, posAt_cons_zero, posAt_cons_zero, shiftQueue_pos]
        simp only [mprofLList]
        rw [shiftQueue_mprofL q c, shiftQueueList_mprofL q cs,
          longZipWith_map_add min q (fun a b => min_add_add_right a b q)]

theorem shiftQueueList_mprofL (q : ℚ) : ∀ (ch : List VTree),
    mprofLList (shiftQueueList q ch) = (mprofLList ch).map fun x => x + q
  | [] => by rw [shiftQueueList, mprofLList]; rfl
  | c :: cs => by
    rw [shiftQueueList, mprofLList, mprofLList, shiftQueue_mprofL q c,
      shiftQueueList_mprofL q cs,
      longZipWith_map_add min q (fun a b => min_add_add_right a b q)]

end

mutual

theorem shiftQueue_mprofR (q : ℚ) : ∀ (t : VTree),
    mprofR (shiftQueue q t) = (mprofR t).map fun x => x + q
  | VTree.node col pos lm rm ch => by
    rw [shiftQueue]
    cases col with
    | true => rw [mprofR, mprofR]; simp
    | false =>
      cases ch with
      | nil => rw [shiftQueueList, mprofR, mprofR]; simp
      | cons c cs =>
        rw [shiftQueueList, mprofR, mprofR]
        simp only [List.isEmpty_cons, Bool.false_or, if_neg (by decide : ¬ (false : Bool) = true)]
        rw [shiftQueueList_eq_map]
        rw [show (shiftQueue q c :: List.map (shiftQueue q) cs).length = (c :: cs).length by simp]
        rw [← shiftQueueList_eq_map]
        have hlast : posAt (shiftQueueList q (c :: cs)) ((c :: cs).length - 1)
            = posAt (c :: cs) ((c :: cs).length - 1) + q := by
          rw [shiftQueueList_eq_map, posAt, posAt]
          have hlt : (c :: cs).length - 1 < (c :: cs).length := by simp
          rw [List.getD_eq_getElem _ _ (by simpa using hlt), List.getD_eq_getElem _ _ hlt,
            List.getElem_map, shiftQueue_pos]
        rw [show shiftQueueList q (c :: cs) = shiftQueue q c :: shiftQueueList q cs from by
          rw [shiftQueueList]] at hlast
        rw [hlast, List.map_cons]
        simp only [mprofRList]
        rw [shiftQueue_mprofR q c, shiftQueueList_mprofR q cs,
          longZipWith_map_add max q (fun a b => max_add_add_right a b q)]

theorem shiftQueueList_mprofR (q : ℚ) : ∀ (ch : List VTree),
    mprofRList (shiftQueueList q ch) = (mprofRList ch).map fun x => x + q
  | [] => by rw [shiftQueueList, mprofRList]; rfl
  | c :: cs => by
    rw [shiftQueueList, mprofRList, mprofRList, shiftQueue_mprofR q c,
      shiftQueueList_mprofR q cs,
      longZipWith_map_add max q (fun a b => max_add_add_right a b q)]

end

mutual

theorem shiftQueue_noOverlap (q : ℚ) : ∀ (t : VTree),
    NoOverlap t → NoOverlap (shiftQueue q t)
  | VTree.node col pos lm rm ch => by
    intro h
    rw [shiftQueue]
    cases col with
    | true => rw [NoOverlap]; simp
    | false =>
      rw [NoOverlap] at h ⊢
      simp only [if_neg (by decide : ¬ (false : Bool) = true)] at h ⊢
      obtain ⟨hpw, hlist⟩ := h
      constructor
      · rw [shiftQueueList_eq_map, List.pairwise_map]
        refine hpw.imp ?_
        intro a b hab
        rw [PairOK, shiftQueue_mprofR, shiftQueue_mprofL, gap1_map_add]
        exact hab
      · exact shiftQueueList_noOverlap q ch hlist

theorem shiftQueueList_noOverlap (q : ℚ) : ∀ (ch : List VTree),
    NoOverlapList ch → NoOverlapList (shiftQueueList q ch)
  | [] => fun h => h
  | c :: cs => by
    intro h
    rw [NoOverlapList] at h
    rw [shiftQueueList, NoOverlapList]
    exact ⟨shiftQueue_noOverlap q c h.1, shiftQueueList_noOverlap q cs h.2⟩

end

theorem applyShift_eq (q : ℚ) (col : Bool) (pos : ℚ) (lm rm : List ℚ) (ch : List VTree) :
    applyShift q (VTree.node col pos lm rm ch)
      = VTree.node col (pos + q) (lm.map fun x => x + q) (rm.map fun x => x + q)
          (if col then ch else shiftQueueList q ch) := by
  rw [applyShift, shiftQueue]

theorem applyShift_node_eq (q : ℚ) (t : VTree) :
    applyShift q t = VTree.node t.col (t.pos + q) (t.lm.map fun x => x + q)
      (t.rm.map fun x => x + q) (shiftQueue q t).children := by
  obtain ⟨col, pos, lm, rm, ch⟩ := t
  rw [applyShift_eq, shiftQueue]
  rfl

theorem applyShift_mprofL (q : ℚ) (t : VTree) :
    mprofL (applyShift q t) = (mprofL t).map fun x => x + q := by
  obtain ⟨col, pos, lm, rm, ch⟩ := t
  rw [applyShift_eq]
  rw [mprofL_margins _ _ _ _ lm rm]
  rw [show VTree.node col (pos + q) lm rm (if col then ch else shiftQueueList q ch)
      = shiftQueue q (VTree.node col pos lm rm ch) from by rw [shiftQueue]]
  exact shiftQueue_mprofL q _

theorem applyShift_mprofR (q : ℚ) (t : VTree) :
    mprofR (applyShift q t) = (mprofR t).map fun x => x + q := by
  obtain ⟨col, pos, lm, rm, ch⟩ := t
  rw [applyShift_eq]
  rw [mprofR_margins _ _ _ _ lm rm]
  rw [show VTree.node col (pos + q) lm rm (if col then ch else shiftQueueList q ch)
      = shiftQueue q (VTree.node col pos lm rm ch) from by rw [shiftQueue]]
  exact shiftQueue_mprofR q _

theorem applyShift_profOK (q : ℚ) (t : VTree) (h : ProfOK t) : ProfOK (applyShift q t) := by
  obtain ⟨h1, h2⟩ := h
  constructor
  · rw [applyShift_mprofL, ← h1, applyShift_node_eq]
    rfl
  · rw [applyShift_mprofR, ← h2, applyShift_node_eq]
    rfl

theorem applyShift_noOverlap (q : ℚ) (t : VTree) (h : NoOverlap t) :
    NoOverlap (applyShift q t) := by
  obtain ⟨col, pos, lm, rm, ch⟩ := t
  rw [applyShift_eq]
  rw [noOverlap_margins _ _ _ _ lm rm]
  rw [show VTree.node col (pos + q) lm rm (if col then ch else shiftQueueList q ch)
      = shiftQueue q (VTree.node col pos lm rm ch) from by rw [shiftQueue]]
  exact shiftQueue_noOverlap q _ h

theorem applyShift_lm (q : ℚ) (t : VTree) :
    (applyShift q t).lm = t.lm.map fun x => x + q := by
  rw [applyShift_node_eq]
  rfl

theorem applyShift_rm (q : ℚ) (t : VTree) :
    (applyShift q t).rm = t.rm.map fun x => x + q := by
  rw [applyShift_node_eq]
  rfl

theorem clearMargins_pos (t : VTree) : (clearMargins t).pos = t.pos := by
  obtain ⟨col, pos, lm, rm, ch⟩ := t
  rw [clearMargins]
  rfl

theorem clearMarginsList_eq_map (ch : List VTree) :
    clearMarginsList ch = ch.map clearMargins := by
  induction ch with
  | nil => rfl
  | cons c cs ih => rw [clearMarginsList, List.map_cons, ih]

mutual

theorem clearMargins_mprofL : ∀ (t : VTree), mprofL (clearMargins t) = mprofL t
  | VTree.node col pos lm rm ch => by
    rw [clearMargins]
    cases col with
    | true => rw [mprofL, mprofL]; simp
    | false =>
      cases ch with
      | nil => rw [clearMarginsList, mprofL, mprofL]; simp
      | cons c cs =>
        rw [clearMarginsList, mprofL, mprofL]
        simp only [List.isEmpty_cons, Bool.false_or,
          if_neg (by decide : ¬ (false : Bool) = true)]
        rw [posAt_cons_zero, posAt_cons_zero, clearMargins_pos]
        simp only [mprofLList]
        rw [clearMargins_mprofL c, clearMarginsList_mprofL cs]

theorem clearMarginsList_mprofL : ∀ (ch : List VTree),
    mprofLList (clearMarginsList ch) = mprofLList ch
  | [] => by rw [clearMarginsList]
  | c :: cs => by
    rw [clearMarginsList]
    simp only [mprofLList]
    rw [clearMargins_mprofL c, clearMarginsList_mprofL cs]

end

mutual

theorem clearMargins_mprofR : ∀ (t : VTree), mprofR (clearMargins t) = mprofR t
  | VTree.node col pos lm rm ch => by
    rw [clearMargins]
    cases col with
    | true => rw [mprofR, mprofR]; simp
    | false =>
      cases ch with
      | nil => rw [clearMarginsList, mprofR, mprofR]; simp
      | cons c cs =>
        rw [clearMarginsList, mprofR, mprofR]
        simp only [List.isEmpty_cons, Bool.false_or,
          if_neg (by decide : ¬ (false : Bool) = true)]
        have hlast : posAt (clearMargins c :: clearMarginsList cs) ((c :: cs).length - 1)
            = posAt (c :: cs) ((c :: cs).length - 1) := by
          rw [posAt, posAt, ← clearMarginsList]
          rw [clearMarginsList_eq_map]
          have hlt : (c :: cs).length - 1 < (c :: cs).length := by simp
          rw [List.getD_eq_getElem _ _ (by simpa using hlt), List.getD_eq_getElem _ _ hlt,
            List.getElem_map, clearMargins_pos]
        rw [show (clearMargins c :: clearMarginsList cs).length = (c :: cs).length from by
          rw [← clearMarginsList, clearMarginsList_eq_map]; simp]
        rw [hlast]
        simp only [mprofRList]
        rw [clearMargins_mprofR c, clearMarginsList_mprofR cs]

theorem clearMarginsList_mprofR : ∀ (ch : List VTree),
    mprofRList (clearMarginsList ch) = mprofRList ch
  | [] => by rw [clearMarginsList]
  | c :: cs => by
    rw [clearMarginsList]
    simp only [mprofRList]
    rw [clearMargins_mprofR c, clearMarginsList_mprofR cs]

end

mutual

theorem clearMargins_noOverlap : ∀ (t : VTree), NoOverlap t → NoOverlap (clearMargins t)
  | VTree.node col pos lm rm ch => by
    intro h
    rw [clearMargins]
    cases col with
    | true => rw [NoOverlap]; simp
    | false =>
      rw [NoOverlap] at h ⊢
      simp only [if_neg (by decide : ¬ (false : Bool) = true)] at h ⊢
      obtain ⟨hpw, hlist⟩ := h
      constructor
      · rw [clearMarginsList_eq_map, List.pairwise_map]
        refine hpw.imp ?_
        intro a b hab
        rw [PairOK, clearMargins_mprofR, clearMargins_mprofL]
        exact hab
      · exact clearMarginsList_noOverlap ch hlist

theorem clearMarginsList_noOverlap : ∀ (ch : List VTree),
    NoOverlapList ch → NoOverlapList (clearMarginsList ch)
  | [] => fun h => h
  | c :: cs => by
    intro h
    rw [NoOverlapList] at h
    rw [clearMarginsList, NoOverlapList]
    exact ⟨clearMargins_noOverlap c h.1, clearMarginsList_noOverlap cs h.2⟩

end

theorem foldl_min_le_init (l : List ℚ) : ∀ a : ℚ, l.foldl min a ≤ a := by
  induction l with
  | nil => intro a; exact le_refl a
  | cons x xs ih => intro a; exact le_trans (ih (min a x)) (min_le_left a x)

theorem foldl_min_le_mem (l : List ℚ) : ∀ (a x : ℚ), x ∈ l → l.foldl min a ≤ x := by
  induction l with
  | nil => intro a x hx; simp at hx
  | cons y ys ih =>
    intro a x hx
    rcases List.mem_cons.mp hx with rfl | hmem
    · exact le_trans (foldl_min_le_init ys (min a x)) (min_le_right a x)
    · exact ih (min a y) x hmem

theorem scanShift_eq_right (arr : List VTree) (pos piv : Nat) (hlt : pos < piv) :
    scanShift arr pos piv
      = List.foldl min MAXQ
          (((scanIndices pos piv arr.length).map fun si =>
            sibConstraints (vget arr pos).rm (vget arr si).lm 1).join) := by
  rw [scanShift]
  simp only [if_pos hlt, vget]
  norm_num

theorem scanShift_eq_left (arr : List VTree) (pos piv : Nat) (hge : ¬ pos < piv) :
    scanShift arr pos piv
      = (-1 : ℚ) * List.foldl min MAXQ
          (((scanIndices pos piv arr.length).map fun si =>
            sibConstraints (vget arr pos).lm (vget arr si).rm (-1)).join) := by
  rw [scanShift]
  simp only [if_neg hge, vget]
  norm_num

theorem sibConstraints_mem (thisM sibM : List ℚ) (dir : Int) (d : Nat)
    (hd : d < sibM.length) :
    ((dir : ℚ) * (sibM.getD d 0 - marginAt thisM dir d) - 1)
      ∈ sibConstraints thisM sibM dir := by
  rw [sibConstraints]
  exact List.mem_map.mpr ⟨d, List.mem_range.mpr hd, rfl⟩

theorem scanShift_le_right (arr : List VTree) (pos piv : Nat) (hlt : pos < piv)
    (j : Nat) (hj : j ∈ scanIndices pos piv arr.length) (d : Nat)
    (hd1 : d < (vget arr j).lm.length) (hd2 : d < (vget arr pos).rm.length) :
    scanShift arr pos piv
      ≤ (vget arr j).lm.getD d 0 - (vget arr pos).rm.getD d 0 - 1 := by
  rw [scanShift_eq_right arr pos piv hlt]
  have hmem : ((1 : ℚ) * ((vget arr j).lm.getD d 0 - marginAt (vget arr pos).rm 1 d) - 1)
      ∈ (((scanIndices pos piv arr.length).map fun si =>
          sibConstraints (vget arr pos).rm (vget arr si).lm 1).join) := by
    refine List.mem_join.mpr ⟨sibConstraints (vget arr pos).rm (vget arr j).lm 1, ?_, ?_⟩
    · exact List.mem_map.mpr ⟨j, hj, rfl⟩
    · have := sibConstraints_mem (vget arr pos).rm (vget arr j).lm 1 d hd1
      simpa using this
  have hle := foldl_min_le_mem _ MAXQ _ hmem
  rw [marginAt, if_pos hd2] at hle
  linarith

theorem scanShift_le_left (arr : List VTree) (pos piv : Nat) (hge : ¬ pos < piv)
    (j : Nat) (hj : j ∈ scanIndices pos piv arr.length) (d : Nat)
    (hd1 : d < (vget arr j).rm.length) (hd2 : d < (vget arr pos).lm.length) :
    (vget arr j).rm.getD d 0 + 1
      ≤ (vget arr pos).lm.getD d 0 + scanShift arr pos piv := by
  rw [scanShift_eq_left arr pos piv hge]
  have hmem : (((-1 : Int) : ℚ) * ((vget arr j).rm.getD d 0 - marginAt (vget arr pos).lm (-1) d) - 1)
      ∈ (((scanIndices pos piv arr.length).map fun si =>
          sibConstraints (vget arr pos).lm (vget arr si).rm (-1)).join) := by
    refine List.mem_join.mpr ⟨sibConstraints (vget arr pos).lm (vget arr j).rm (-1), ?_, ?_⟩
    · exact List.mem_map.mpr ⟨j, hj, rfl⟩
    · exact sibConstraints_mem (vget arr pos).lm (vget arr j).rm (-1) d hd1
  have hle := foldl_min_le_mem _ MAXQ _ hmem
  rw [marginAt, if_pos hd2] at hle
  have hc : ((-1 : Int) : ℚ) = (-1 : ℚ) := by norm_num
  rw [hc] at hle
  nlinarith [hle]

theorem mem_scanIndices_right (pos piv len j : Nat) (hlt : pos < piv)
    (hj1 : pos < j) (hj2 : j < len) : j ∈ scanIndices pos piv len := by
  rw [scanIndices]
  simp only [if_pos hlt]
  rw [scanLoop_pos len (len + 1) ((pos : Int) + 1) (by omega) (by omega)]
  have h1 : ((pos : Int) + 1).toNat = pos + 1 := by omega
  rw [h1, List.mem_range'_1]
  omega

theorem mem_scanIndices_left (pos piv len j : Nat) (hge : ¬ pos < piv)
    (hpos0 : 0 < pos) (hlen : pos ≤ len) (hj : j < pos) :
    j ∈ scanIndices pos piv len := by
  rw [scanIndices]
  simp only [if_neg hge]
  rw [show (pos : Int) + -1 = (pos : Int) - 1 from by omega,
    scanLoop_neg len (len + 1) ((pos : Int) - 1) (by omega) (by omega) (by omega)]
  have h1 : ((pos : Int) - 1).toNat + 1 = pos := by omega
  rw [h1, List.mem_reverse, List.mem_range]
  exact hj

/-- Invariant carried through the two child loops of `_realign`: slots
not yet processed (`¬ P i`) still hold the original children; processed
slots hold realigned subtrees with correct margins; and processed pairs
already keep the unit gap. -/
def StepInv (ch : List VTree) (P : Nat → Prop) (arr : List VTree) : Prop :=
  arr.length = ch.length ∧
  (∀ i, i < ch.length → ¬ P i → vget arr i = vget ch i) ∧
  (∀ i, i < ch.length → P i → ProfOK (vget arr i) ∧ NoOverlap (vget arr i)) ∧
  (∀ i j, i < ch.length → j < ch.length → P i → P j → i < j →
    Gap1 (vget arr i).rm (vget arr j).lm)

theorem stepInv_congr (ch : List VTree) (P Q : Nat → Prop) (arr : List VTree)
    (hPQ : ∀ k, P k ↔ Q k) (h : StepInv ch P arr) : StepInv ch Q arr := by
  obtain ⟨h1, h2, h3, h4⟩ := h
  refine ⟨h1, ?_, ?_, ?_⟩
  · intro i hi hq
    exact h2 i hi (fun hp => hq ((hPQ i).mp hp))
  · intro i hi hq
    exact h3 i hi ((hPQ i).mpr hq)
  · intro i j hi hj hqi hqj hij
    exact h4 i j hi hj ((hPQ i).mpr hqi) ((hPQ j).mpr hqj) hij

theorem realignStep_inv (ch subs arr : List VTree) (piv : Nat) (P : Nat → Prop)
    (i : Nat) (hi : i < ch.length) (hnP : ¬ P i)
    (hleft : i < piv → ∀ j, P j → i < j)
    (hright : piv < i → ∀ j, P j → j < i)
    (hpiv : i = piv → ∀ j, ¬ P j)
    (hPlt : ∀ j, P j → j < ch.length)
    (hgood : ProfOK (subs.getD i dfltV) ∧ NoOverlap (subs.getD i dfltV))
    (hinv : StepInv ch P arr) :
    StepInv ch (fun k => k = i ∨ P k) (realignStep piv subs arr i) := by
  obtain ⟨hlen, hun, hproc, hgap⟩ := hinv
  have hia : i < arr.length := by omega
  rw [realignStep]
  by_cases hip : i = piv
  · rw [if_pos hip]
    refine ⟨by simp [hlen], ?_, ?_, ?_⟩
    · intro k hk hkP
      have hk1 : k ≠ i := fun hcon => hkP (Or.inl hcon)
      have hk2 : ¬ P k := fun hcon => hkP (Or.inr hcon)
      rw [vget_set_ne arr i k _ hk1]
      exact hun k hk hk2
    · intro k hk hkP
      rcases hkP with hki | hkP
      · rw [hki, vget_set_self arr i _ hia]
        exact hgood
      · exact absurd hkP (hpiv hip k)
    · intro a b ha hb haP hbP hab
      rcases hbP with hbi | hbP
      · rcases haP with hai | haP
        · omega
        · exact absurd haP (hpiv hip a)
      · exact absurd hbP (hpiv hip b)
  · rw [if_neg hip]
    have hset : (arr.set i (subs.getD i dfltV)).set i
        (applyShift (scanShift (arr.set i (subs.getD i dfltV)) i piv) (subs.getD i dfltV))
        = arr.set i (applyShift (scanShift (arr.set i (subs.getD i dfltV)) i piv)
            (subs.getD i dfltV)) := List.set_set _ _ _ _
    rw [hset]
    have harr2len : (arr.set i (subs.getD i dfltV)).length = ch.length := by simp [hlen]
    have hv2self : vget (arr.set i (subs.getD i dfltV)) i = subs.getD i dfltV :=
      vget_set_self arr i _ hia
    have hv2ne : ∀ k, k ≠ i → vget (arr.set i (subs.getD i dfltV)) k = vget arr k :=
      fun k hk => vget_set_ne arr i k _ hk
    refine ⟨by simp [hlen], ?_, ?_, ?_⟩
    · intro k hk hkP
      have hk1 : k ≠ i := fun hcon => hkP (Or.inl hcon)
      have hk2 : ¬ P k := fun hcon => hkP (Or.inr hcon)
      rw [vget_set_ne arr i k _ hk1]
      exact hun k hk hk2
    · intro k hk hkP
      rcases hkP with hki | hkP
      · rw [hki, vget_set_self arr i _ hia]
        exact ⟨applyShift_profOK _ _ hgood.1, applyShift_noOverlap _ _ hgood.2⟩
      · have hkne : k ≠ i := fun hcon => hnP (hcon ▸ hkP)
        rw [vget_set_ne arr i k _ hkne]
        exact hproc k hk hkP
    · intro a b ha hb haP hbP hab
      rcases haP with hai | haP
      · -- the new node is the left partner: it was shifted toward a pivot on its right
        rcases hbP with hbi | hbP
        · omega
        · have hbne : b ≠ i := fun hcon => hnP (hcon ▸ hbP)
          have hlt : i < piv := by
            rcases Nat.lt_or_ge i piv with h | h
            · exact h
            · have hipiv : piv < i := by omega
              have := hright hipiv b hbP
              omega
          rw [hai, vget_set_self arr i _ hia, vget_set_ne arr i b _ hbne]
          rw [applyShift_rm]
          intro d hd1 hd2
          rw [List.length_map] at hd1
          rw [getD_map_add _ _ _ hd1]
          have hib : i < b := by omega
          have hmem : b ∈ scanIndices i piv (arr.set i (subs.getD i dfltV)).length := by
            refine mem_scanIndices_right i piv _ b hlt hib ?_
            rw [harr2len]
            exact hPlt b hbP
          have hle := scanShift_le_right (arr.set i (subs.getD i dfltV)) i piv hlt b hmem d
            (by rw [hv2ne b hbne]; exact hd2) (by rw [hv2self]; exact hd1)
          rw [hv2ne b hbne, hv2self] at hle
          linarith
      · rcases hbP with hbi | hbP
        · -- the new node is the right partner: it was shifted toward a pivot on its left
          have hane : a ≠ i := fun hcon => hnP (hcon ▸ haP)
          have hge : ¬ i < piv := by
            intro hcon
            have := hleft hcon a haP
            omega
          rw [hbi, vget_set_self arr i _ hia, vget_set_ne arr i a _ hane]
          rw [applyShift_lm]
          intro d hd1 hd2
          rw [List.length_map] at hd2
          rw [getD_map_add _ _ _ hd2]
          have hai2 : a < i := by omega
          have hmem : a ∈ scanIndices i piv (arr.set i (subs.getD i dfltV)).length := by
            refine mem_scanIndices_left i piv _ a hge (by omega) ?_ hai2
            rw [harr2len]
            omega
          have hle := scanShift_le_left (arr.set i (subs.getD i dfltV)) i piv hge a hmem d
            (by rw [hv2ne a hane]; exact hd1) (by rw [hv2self]; exact hd2)
          rw [hv2ne a hane, hv2self] at hle
          linarith
        · have hane : a ≠ i := fun hcon => hnP (hcon ▸ haP)
          have hbne : b ≠ i := fun hcon => hnP (hcon ▸ hbP)
          rw [vget_set_ne arr i a _ hane, vget_set_ne arr i b _ hbne]
          exact hgap a b ha hb haP hbP hab

theorem pivotOf_lt (L : Nat) (h : 0 < L) : pivotOf L < L := by
  rw [pivotOf]
  split <;> omega

theorem range_reverse_succ (m : Nat) :
    (List.range (m + 1)).reverse = m :: (List.range m).reverse := by
  rw [List.range_succ, List.reverse_append]
  rfl

theorem foldDown (ch subs : List VTree) (piv : Nat) (hpiv : piv < ch.length)
    (hgood : ∀ k, k < ch.length →
      ProfOK (subs.getD k dfltV) ∧ NoOverlap (subs.getD k dfltV)) :
    ∀ (m : Nat) (arr : List VTree), m ≤ piv →
      StepInv ch (fun j => m < j ∧ j ≤ piv) arr →
      StepInv ch (fun j => j ≤ piv)
        (List.foldl (realignStep piv subs) arr ((List.range (m + 1)).reverse)) := by
  intro m
  induction m with
  | zero =>
    intro arr h0 hinv
    rw [range_reverse_succ]
    simp only [List.range_zero, List.reverse_nil, List.foldl_cons, List.foldl_nil]
    have hstep := realignStep_inv ch subs arr piv (fun j => 0 < j ∧ j ≤ piv) 0
      (by omega) (by omega)
      (fun h j hj => hj.1)
      (fun h j hj => by omega)
      (fun h j hj => by omega)
      (fun j hj => by omega)
      (hgood 0 (by omega)) hinv
    exact stepInv_congr ch _ _ _ (fun k => by constructor <;> (intro hk; omega)) hstep
  | succ m ih =>
    intro arr hm hinv
    rw [range_reverse_succ, List.foldl_cons]
    have hstep := realignStep_inv ch subs arr piv (fun j => m + 1 < j ∧ j ≤ piv) (m + 1)
      (by omega) (by omega)
      (fun h j hj => hj.1)
      (fun h j hj => by omega)
      (fun h j hj => by omega)
      (fun j hj => by omega)
      (hgood (m + 1) (by omega)) hinv
    exact ih _ (by omega)
      (stepInv_congr ch _ _ _ (fun k => by constructor <;> (intro hk; omega)) hstep)

theorem foldUp (ch subs : List VTree) (piv : Nat) (hpiv : piv < ch.length)
    (hgood : ∀ k, k < ch.length →
      ProfOK (subs.getD k dfltV) ∧ NoOverlap (subs.getD k dfltV)) :
    ∀ (n s : Nat) (arr : List VTree), piv < s → s + n ≤ ch.length →
      StepInv ch (fun j => j < s) arr →
      StepInv ch (fun j => j < s + n)
        (List.foldl (realignStep piv subs) arr (List.range' s n)) := by
  intro n
  induction n with
  | zero =>
    intro s arr hs hsn hinv
    simp only [List.range', List.foldl_nil]
    exact stepInv_congr ch _ _ _ (fun k => by constructor <;> (intro hk; omega)) hinv
  | succ n ih =>
    intro s arr hs hsn hinv
    rw [List.range'_succ, List.foldl_cons]
    have hstep := realignStep_inv ch subs arr piv (fun j => j < s) s
      (by omega) (by omega)
      (fun h j hj => by omega)
      (fun h j hj => hj)
      (fun h j hj => by omega)
      (fun j hj => by omega)
      (hgood s (by omega)) hinv
    have hrec := ih (s + 1) _ (by omega) (by omega)
      (stepInv_congr ch _ _ _ (fun k => by constructor <;> (intro hk; omega)) hstep)
    exact stepInv_congr ch _ _ _ (fun k => by constructor <;> (intro hk; omega)) hrec

theorem shiftPhase_inv (ch subs : List VTree) (h0 : 0 < ch.length)
    (hgood : ∀ k, k < ch.length →
      ProfOK (subs.getD k dfltV) ∧ NoOverlap (subs.getD k dfltV)) :
    StepInv ch (fun j => j < ch.length) (shiftPhase ch subs) := by
  rw [shiftPhase, pivotOrder, List.foldl_append]
  have hpiv := pivotOf_lt ch.length h0
  have hinit : StepInv ch (fun j => pivotOf ch.length < j ∧ j ≤ pivotOf ch.length) ch := by
    refine ⟨rfl, fun i hi hn => rfl, fun i hi hP => by omega, fun a b ha hb haP => by omega⟩
  have hdown := foldDown ch subs (pivotOf ch.length) hpiv hgood (pivotOf ch.length) ch
    (le_refl _) hinit
  have hup := foldUp ch subs (pivotOf ch.length) hpiv hgood
    (ch.length - (pivotOf ch.length + 1)) (pivotOf ch.length + 1) _ (by omega) (by omega)
    (stepInv_congr ch _ _ _ (fun k => by constructor <;> (intro hk; omega)) hdown)
  exact stepInv_congr ch _ _ _ (fun k => by constructor <;> (intro hk; omega)) hup

theorem vtree_eta (t : VTree) : VTree.node t.col t.pos t.lm t.rm t.children = t := by
  obtain ⟨col, pos, lm, rm, ch⟩ := t
  rfl

theorem vget_eq_getElem (l : List VTree) (i : Nat) (hi : i < l.length) :
    vget l i = l[i] := List.getD_eq_getElem l dfltV hi

theorem vget_mem (l : List VTree) (k : Nat) (hk : k < l.length) : vget l k ∈ l := by
  rw [vget_eq_getElem l k hk]
  exact List.getElem_mem hk

theorem vget_of_mem (l : List VTree) (x : VTree) (hx : x ∈ l) :
    ∃ i, ∃ h : i < l.length, vget l i = x := by
  obtain ⟨i, hi, heq⟩ := List.mem_iff_getElem.mp hx
  exact ⟨i, hi, by rw [vget_eq_getElem l i hi, heq]⟩

theorem calculateMargins_eq_node (t : VTree) :
    calculateMargins t
      = VTree.node t.col t.pos (calculateMargins t).lm (calculateMargins t).rm t.children := by
  obtain ⟨col, pos, lm, rm, ch⟩ := t
  cases col with
  | true => rfl
  | false =>
    cases ch with
    | nil => rfl
    | cons c cs =>
      have hcalc : calculateMargins (VTree.node false pos lm rm (c :: cs))
          = VTree.node false pos ((c :: cs).foldl mergeL [posAt (c :: cs) 0])
              ((c :: cs).foldl mergeR [posAt (c :: cs) ((c :: cs).length - 1)]) (c :: cs) := by
        rw [calculateMargins]
        simp
      rw [hcalc]
      rfl

theorem mprofL_calculateMargins (t : VTree) :
    mprofL (calculateMargins t) = mprofL t := by
  conv_lhs => rw [calculateMargins_eq_node t]
  rw [mprofL_margins _ _ _ _ t.lm t.rm, vtree_eta]

theorem mprofR_calculateMargins (t : VTree) :
    mprofR (calculateMargins t) = mprofR t := by
  conv_lhs => rw [calculateMargins_eq_node t]
  rw [mprofR_margins _ _ _ _ t.lm t.rm, vtree_eta]

theorem noOverlap_calculateMargins (t : VTree) :
    NoOverlap (calculateMargins t) ↔ NoOverlap t := by
  conv_lhs => rw [calculateMargins_eq_node t]
  rw [noOverlap_margins _ _ _ _ t.lm t.rm, vtree_eta]

theorem calculateMargins_profOK_true (pos : ℚ) (lm rm : List ℚ) (ch : List VTree) :
    ProfOK (calculateMargins (VTree.node true pos lm rm ch)) := by
  constructor <;> rfl

theorem noOverlap_node_true (pos : ℚ) (lm rm : List ℚ) (ch : List VTree) :
    NoOverlap (VTree.node true pos lm rm ch) := by
  rw [NoOverlap]
  simp

theorem noOverlap_node_false (pos : ℚ) (lm rm : List ℚ) (ch : List VTree) :
    NoOverlap (VTree.node false pos lm rm ch)
      ↔ List.Pairwise PairOK ch ∧ NoOverlapList ch := by
  rw [NoOverlap]
  simp

theorem shiftPhase_node_facts (pos2 : ℚ) (lm rm : List ℚ) (ch subs : List VTree)
    (h0 : 0 < ch.length)
    (hgood : ∀ k, k < ch.length →
      ProfOK (subs.getD k dfltV) ∧ NoOverlap (subs.getD k dfltV)) :
    NoOverlap (VTree.node false pos2 lm rm (shiftPhase ch subs)) ∧
    (∀ x ∈ shiftPhase ch subs, x.lm = mprofL x ∧ x.rm = mprofR x) := by
  obtain ⟨hlen, hun, hproc, hgap⟩ := shiftPhase_inv ch subs h0 hgood
  have hprof : ∀ x ∈ shiftPhase ch subs, x.lm = mprofL x ∧ x.rm = mprofR x := by
    intro x hx
    obtain ⟨i, hi, heq⟩ := vget_of_mem _ x hx
    have := (hproc i (by omega) (by omega)).1
    rw [heq] at this
    exact this
  refine ⟨?_, hprof⟩
  rw [noOverlap_node_false]
  constructor
  · rw [List.pairwise_iff_getElem]
    intro a b ha hb hab
    have hach : a < ch.length := by omega
    have hbch : b < ch.length := by omega
    have hg := hgap a b hach hbch hach hbch hab
    have hpa := hproc a hach hach
    have hpb := hproc b hbch hbch
    rw [PairOK, ← vget_eq_getElem _ a (by omega), ← vget_eq_getElem _ b (by omega),
      ← hpa.1.2, ← hpb.1.1]
    exact hg
  · rw [noOverlapList_iff]
    intro x hx
    obtain ⟨i, hi, heq⟩ := vget_of_mem _ x hx
    have := (hproc i (by omega) (by omega)).2
    rw [heq] at this
    exact this

theorem realignSubList_length (ch : List VTree) :
    (realignSubList ch).length = ch.length := by
  induction ch with
  | nil => rw [realignSubList]
  | cons c cs ih =>
    rw [realignSubList, List.length_cons, List.length_cons, ih]

theorem calculateMargins_profOK (t : VTree)
    (hc : ∀ x ∈ t.children, x.lm = mprofL x ∧ x.rm = mprofR x) :
    ProfOK (calculateMargins t) := by
  constructor
  · rw [mprofL_calculateMargins]
    exact (calculateMargins_profiles t (fun x hx => (hc x hx).1) (fun x hx => (hc x hx).2)).1
  · rw [mprofR_calculateMargins]
    exact (calculateMargins_profiles t (fun x hx => (hc x hx).1) (fun x hx => (hc x hx).2)).2

mutual

/-- Every subtree handed back by the recursive part of `_realign`
carries margins equal to its profiles and pairwise-separated visible
children at every level. -/
theorem realignSub_good : ∀ (t : VTree), ProfOK (realignSub t) ∧ NoOverlap (realignSub t)
  | VTree.node col pos lm rm ch => by
    cases col with
    | true =>
      rw [realignSub]
      simp only [Bool.not_true, Bool.false_and, Bool.false_eq_true, if_false]
      refine ⟨calculateMargins_profOK_true pos lm rm ch, ?_⟩
      rw [noOverlap_calculateMargins]
      exact noOverlap_node_true pos lm rm ch
    | false =>
      cases ch with
      | nil =>
        rw [realignSub]
        simp only [List.isEmpty_nil, Bool.not_true, Bool.and_false, Bool.false_eq_true,
          if_false]
        constructor
        · refine calculateMargins_profOK _ ?_
          intro x hx
          exact absurd (show x ∈ ([] : List VTree) from hx) (List.not_mem_nil x)
        · rw [noOverlap_calculateMargins, noOverlap_node_false]
          exact ⟨List.Pairwise.nil, trivial⟩
      | cons c cs =>
        have hgood : ∀ k, k < (c :: cs).length →
            ProfOK ((realignSubList (c :: cs)).getD k dfltV) ∧
            NoOverlap ((realignSubList (c :: cs)).getD k dfltV) := by
          intro k hk
          have hklen : k < (realignSubList (c :: cs)).length := by
            rw [realignSubList_length]
            exact hk
          have hmem : (realignSubList (c :: cs)).getD k dfltV ∈ realignSubList (c :: cs) :=
            vget_mem _ k hklen
          exact realignSubList_good (c :: cs) _ hmem
        obtain ⟨hno, hprof⟩ := shiftPhase_node_facts
          (if (shiftPhase (c :: cs) (realignSubList (c :: cs))).length % 2 = 0 then
            (posAt (shiftPhase (c :: cs) (realignSubList (c :: cs)))
                (pivotOf (shiftPhase (c :: cs) (realignSubList (c :: cs))).length) +
              posAt (shiftPhase (c :: cs) (realignSubList (c :: cs)))
                (pivotOf (shiftPhase (c :: cs) (realignSubList (c :: cs))).length + 1)) / 2
          else posAt (shiftPhase (c :: cs) (realignSubList (c :: cs)))
            (pivotOf (shiftPhase (c :: cs) (realignSubList (c :: cs))).length))
          lm rm (c :: cs) (realignSubList (c :: cs)) (by simp) hgood
        rw [realignSub]
        simp only [List.isEmpty_cons, Bool.not_false, Bool.and_self, if_true]
        constructor
        · refine calculateMargins_profOK _ ?_
          intro x hx
          exact hprof x
            (show x ∈ shiftPhase (c :: cs) (realignSubList (c :: cs)) from hx)
        · rw [noOverlap_calculateMargins]
          exact hno

theorem realignSubList_good : ∀ (ch : List VTree), ∀ r ∈ realignSubList ch,
    ProfOK r ∧ NoOverlap r
  | [] => by
    intro r hr
    rw [realignSubList] at hr
    exact absurd hr (List.not_mem_nil r)
  | c :: cs => by
    intro r hr
    rw [realignSubList] at hr
    rcases List.mem_cons.mp hr with hrc | hrm
    · exact hrc ▸ realignSub_good c
    · exact realignSubList_good cs r hrm

end

theorem realignRoot_noOverlap (t : VTree) : NoOverlap (realignRoot t) := by
  obtain ⟨col, pos, lm, rm, ch⟩ := t
  cases col with
  | true =>
    rw [realignRoot]
    simp only [Bool.not_true, Bool.false_and, Bool.false_eq_true, if_false]
    exact clearMargins_noOverlap _ (noOverlap_node_true pos lm rm ch)
  | false =>
    cases ch with
    | nil =>
      rw [realignRoot]
      simp only [List.isEmpty_nil, Bool.not_true, Bool.and_false, Bool.false_eq_true,
        if_false]
      refine clearMargins_noOverlap _ ?_
      rw [noOverlap_node_false]
      exact ⟨List.Pairwise.nil, trivial⟩
    | cons c cs =>
      have hgood : ∀ k, k < (c :: cs).length →
          ProfOK ((realignSubList (c :: cs)).getD k dfltV) ∧
          NoOverlap ((realignSubList (c :: cs)).getD k dfltV) := by
        intro k hk
        have hklen : k < (realignSubList (c :: cs)).length := by
          rw [realignSubList_length]
          exact hk
        exact realignSubList_good (c :: cs) _ (vget_mem _ k hklen)
      obtain ⟨hno, hprof⟩ := shiftPhase_node_facts
        (if (shiftPhase (c :: cs) (realignSubList (c :: cs))).length % 2 = 0 then
          (posAt (shiftPhase (c :: cs) (realignSubList (c :: cs)))
              (pivotOf (shiftPhase (c :: cs) (realignSubList (c :: cs))).length) +
            posAt (shiftPhase (c :: cs) (realignSubList (c :: cs)))
              (pivotOf (shiftPhase (c :: cs) (realignSubList (c :: cs))).length + 1)) / 2
        else posAt (shiftPhase (c :: cs) (realignSubList (c :: cs)))
          (pivotOf (shiftPhase (c :: cs) (realignSubList (c :: cs))).length))
        lm rm (c :: cs) (realignSubList (c :: cs)) (by simp) hgood
      rw [realignRoot]
      simp only [List.isEmpty_cons, Bool.not_false, Bool.and_self, if_true]
      exact clearMargins_noOverlap _ hno

/-- Claim C2: after the layout pipeline (`_setLeafPositions` followed by
`_realign` on the root), at every node of the resulting tree that is not
hidden inside a collapsed subtree, the visible children are pairwise
non-overlapping: for any two siblings, the one with the smaller index
(closer to the axis origin) has its right-margin profile at least one
unit less than the other's left-margin profile at every relative depth
present in both profiles. -/
theorem c2_no_overlap (t : VTree) : NoOverlap (layout t) := by
  rw [layout]
  exact realignRoot_noOverlap _

end SVGTreeSpec
